import Mathlib

/-!
Verification of the rkn-checker registry/index core against its
natural-language specification.  Go strings are modelled as `List Char`,
Go maps as association lists with upsert semantics, 64-bit unsigned
arithmetic as `Nat` reduced modulo `2 ^ 64` where overflow matters, and
fallible Go functions as `Except`/`Option`-valued Lean functions.
-/

set_option autoImplicit false

namespace Rkn

/-- Go strings, modelled as lists of characters. -/
abbrev Str := List Char

/-- ASCII lower-casing of one character (model of Go `strings.ToLower`,
restricted to ASCII which is all the repository ever stores). -/
def toLowerChar (c : Char) : Char :=
  if 'A' ≤ c ∧ c ≤ 'Z' then Char.ofNat (c.toNat + 32) else c

/-- Model of Go `strings.ToLower`. -/
def strToLower (s : Str) : Str := s.map toLowerChar

/-- ASCII decimal digit test. -/
def isDigitCh (c : Char) : Bool := '0' ≤ c && c ≤ '9'

/-- ASCII letter test. -/
def isAlphaCh (c : Char) : Bool := ('a' ≤ c && c ≤ 'z') || ('A' ≤ c && c ≤ 'Z')

/-- ASCII alphanumeric test. -/
def isAlnumCh (c : Char) : Bool := isAlphaCh c || isDigitCh c

/-- ASCII whitespace, as trimmed by Go `strings.TrimSpace`. -/
def isSpaceCh (c : Char) : Bool :=
  c = ' ' || c = '\t' || c = '\n' || c = '\x0b' || c = '\x0c' || c = '\r'

/-- Model of Go `strings.TrimSpace` (ASCII whitespace). -/
def trimSpace (s : Str) : Str :=
  ((s.dropWhile isSpaceCh).reverse.dropWhile isSpaceCh).reverse

/-- Boolean "p is a prefix of s" (model of Go `strings.HasPrefix(s, p)`
with the arguments in prefix-first order). -/
def pfxOf : Str → Str → Bool
  | [], _ => true
  | _ :: _, [] => false
  | a :: p, b :: s => decide (a = b) && pfxOf p s

/-- Model of Go `strings.HasPrefix(s, p)`. -/
def strHasPfx (s p : Str) : Bool := pfxOf p s

/-- Model of Go `strings.HasSuffix(s, p)`. -/
def strHasSfx (s p : Str) : Bool := pfxOf p.reverse s.reverse

/-- Model of Go `strings.TrimPrefix(s, p)`. -/
def strTrimPfx (s p : Str) : Str := if strHasPfx s p then s.drop p.length else s

/-- Model of Go `strings.Contains(hay, needle)`. -/
def strContainsSub (hay needle : Str) : Bool :=
  match hay with
  | [] => needle.isEmpty
  | _ :: t => pfxOf needle hay || strContainsSub t needle

/-- Model of Go `strings.Split(s, sep)` for a one-character separator,
accumulator form. -/
def splitOnAux (sep : Char) : Str → Str → List Str
  | [], acc => [acc.reverse]
  | c :: rest, acc =>
    if c = sep then acc.reverse :: splitOnAux sep rest []
    else splitOnAux sep rest (c :: acc)

/-- Model of Go `strings.Split(s, sep)` for a one-character separator. -/
def splitOnChar (sep : Char) (s : Str) : List Str := splitOnAux sep s []

/-- Model of Go `strings.Join(parts, ".")`. -/
def joinDots : List Str → Str
  | [] => []
  | [p] => p
  | p :: rest => p ++ '.' :: joinDots rest

/-- Index of the last occurrence of a character (model of Go
`strings.LastIndex` for a one-character needle). -/
def lastIdx (c : Char) (s : Str) : Option Nat :=
  match s.reverse.findIdx? (fun x => x = c) with
  | none => none
  | some i => some (s.length - 1 - i)

/-! ### Model of the Go `net` package IP functions used by the repository -/

/-- A parsed IP address: IPv4 as four octets, IPv6 as eight 16-bit groups. -/
inductive IPAddr where
  | v4 (a b c d : Nat)
  | v6 (g : List Nat)
  deriving DecidableEq

/-- Decimal value of a digit string. -/
def decVal (s : Str) : Nat := s.foldl (fun acc c => acc * 10 + (c.toNat - 48)) 0

/-- One dotted-decimal IPv4 field as accepted by Go `net.ParseIP`
(Go ≥ 1.17 semantics: nonempty, all digits, value ≤ 255, no leading zero). -/
def parseDecOctet (s : Str) : Option Nat :=
  match s with
  | [] => none
  | c :: rest =>
    if (c :: rest).all isDigitCh && !(c = '0' && rest ≠ []) && decVal (c :: rest) ≤ 255 then
      some (decVal (c :: rest))
    else none

/-- Model of the IPv4 branch of Go `net.ParseIP`. -/
def parseIPv4 (s : Str) : Option IPAddr :=
  match splitOnChar '.' s with
  | [a, b, c, d] =>
    match parseDecOctet a, parseDecOctet b, parseDecOctet c, parseDecOctet d with
    | some a', some b', some c', some d' => some (.v4 a' b' c' d')
    | _, _, _, _ => none
  | _ => none

/-- Hexadecimal value of one character, if it is a hex digit. -/
def hexVal (c : Char) : Option Nat :=
  if '0' ≤ c ∧ c ≤ '9' then some (c.toNat - 48)
  else if 'a' ≤ c ∧ c ≤ 'f' then some (c.toNat - 87)
  else if 'A' ≤ c ∧ c ≤ 'F' then some (c.toNat - 70)
  else none

/-- One IPv6 group: 1–4 hex digits. -/
def parseHexGroup (s : Str) : Option Nat :=
  if s = [] ∨ s.length > 4 then none
  else
    s.foldl (fun acc c =>
      match acc, hexVal c with
      | some a, some h => some (a * 16 + h)
      | _, _ => none) (some 0)

/-- Parse a colon-separated segment list (already split on `':'`) into
16-bit groups; the last segment may be a dotted-quad IPv4 tail counting
as two groups. -/
def parseSegs : List Str → Option (List Nat)
  | [] => some []
  | [s] =>
    if s.contains '.' then
      match parseIPv4 s with
      | some (.v4 a b c d) => some [a * 256 + b, c * 256 + d]
      | _ => none
    else
      match parseHexGroup s with
      | some g => some [g]
      | none => none
  | s :: rest =>
    match parseHexGroup s, parseSegs rest with
    | some g, some gs => some (g :: gs)
    | _, _ => none

/-- Model of the IPv6 branch of Go `net.ParseIP` (`%zone` suffixes are
rejected, as they are by `net.ParseIP`; exactly one `::` may compress at
least one zero group). -/
def parseIPv6 (s : Str) : Option IPAddr :=
  let segs := splitOnChar ':' s
  let emptyIdx := (List.range segs.length).filter (fun i => segs.getD i [] = [])
  match emptyIdx with
  | [] =>
    -- full form: the segments must expand to exactly eight groups
    match parseSegs segs with
    | some gs => if gs.length = 8 then some (.v6 gs) else none
    | none => none
  | _ =>
    -- compressed form: locate the single `::`
    let split :=
      if segs.length = 3 ∧ emptyIdx = [0, 1, 2] then some (([] : List Str), ([] : List Str))
      else if emptyIdx = [0, 1] then some ([], segs.drop 2)
      else if emptyIdx = [segs.length - 2, segs.length - 1] then some (segs.take (segs.length - 2), [])
      else match emptyIdx with
        | [i] => if 0 < i ∧ i < segs.length - 1 then some (segs.take i, segs.drop (i + 1)) else none
        | _ => none
    match split with
    | none => none
    | some (pre, post) =>
      match parseSegs' pre, parseSegs' post with
      | some g1, some g2 =>
        if g1.length + g2.length < 8 then
          some (.v6 (g1 ++ List.replicate (8 - g1.length - g2.length) 0 ++ g2))
        else none
      | _, _ => none
where
  /-- like `parseSegs` but an empty list of segments yields no groups. -/
  parseSegs' : List Str → Option (List Nat)
    | [] => some []
    | l => parseSegs l

/-- Model of Go `net.ParseIP`: the first `.` or `:` decides the family. -/
def parseIP (s : Str) : Option IPAddr :=
  match s.find? (fun c => c = '.' || c = ':') with
  | some c => if c = '.' then parseIPv4 s else parseIPv6 s
  | none => none

/-- Decimal printer for values below 1000 (Go `uitoa`, restricted to the
octet range the repository prints). -/
def natToDec (n : Nat) : Str :=
  if n < 10 then [Char.ofNat (48 + n)]
  else if n < 100 then [Char.ofNat (48 + n / 10), Char.ofNat (48 + n % 10)]
  else [Char.ofNat (48 + n / 100), Char.ofNat (48 + n / 10 % 10), Char.ofNat (48 + n % 10)]

/-- Model of Go `net.IP.String` for a four-byte address. -/
def printIPv4 (a b c d : Nat) : Str :=
  natToDec a ++ '.' :: natToDec b ++ '.' :: natToDec c ++ '.' :: natToDec d

/-- Lowercase hex printer without leading zeros (Go `hexString` digits). -/
def natToHex (n : Nat) : Str :=
  let rec go (fuel n : Nat) (acc : Str) : Str :=
    match fuel with
    | 0 => acc
    | fuel + 1 =>
      if n = 0 then acc
      else go fuel (n / 16)
        (Char.ofNat (if n % 16 < 10 then 48 + n % 16 else 87 + n % 16) :: acc)
  if n = 0 then ['0'] else go 16 n []

/-- Leftmost longest run (of length ≥ 2) of zero groups, as chosen by
Go `net.IP.String` for `::` compression. -/
def bestZeroRun (g : List Nat) : Option (Nat × Nat) :=
  let runLen (i : Nat) : Nat := ((g.drop i).takeWhile (fun x => x = 0)).length
  let cands := (List.range g.length).map (fun i => (i, runLen i))
  let best := cands.foldl (fun acc p => if p.2 > acc.2 then p else acc) (0, 0)
  if best.2 ≥ 2 then some best else none

/-- Model of Go `net.IP.String` for a 16-byte address that is not
IPv4-mapped: hex groups joined by `':'` with the best zero run
compressed to `::`. -/
def printIPv6 (g : List Nat) : Str :=
  match bestZeroRun g with
  | none => joinDots' (g.map natToHex)
  | some (s, l) =>
    joinDots' ((g.take s).map natToHex) ++ ':' :: ':' ::
      joinDots' ((g.drop (s + l)).map natToHex)
where
  /-- join with `':'` separators. -/
  joinDots' : List Str → Str
    | [] => []
    | [p] => p
    | p :: rest => p ++ ':' :: joinDots' rest

/-- Model of Go `IP.To4`: succeeds on four-byte addresses and on
IPv4-mapped sixteen-byte addresses (`::ffff:a.b.c.d`). -/
def toV4 : IPAddr → Option (Nat × Nat × Nat × Nat)
  | .v4 a b c d => some (a, b, c, d)
  | .v6 g =>
    if g.take 5 = [0, 0, 0, 0, 0] ∧ g.getD 5 0 = 0xffff ∧ g.length = 8 then
      some (g.getD 6 0 / 256, g.getD 6 0 % 256, g.getD 7 0 / 256, g.getD 7 0 % 256)
    else none

/-- Model of `URLNormalizer.normalizeIP`: dotted quad when `To4`
succeeds, otherwise the compressed IPv6 text form. -/
def normalizeIP (ip : IPAddr) : Str :=
  match toV4 ip with
  | some (a, b, c, d) => printIPv4 a b c d
  | none =>
    match ip with
    | .v4 a b c d => printIPv4 a b c d
    | .v6 g => printIPv6 g

/-- Model of `domain.IsValidIP` (`net.ParseIP(ip) != nil`). -/
def IsValidIP (s : Str) : Bool := (parseIP s).isSome

/-! ### The `internal/domain` package -/

/-- The error values of `internal/domain/errors.go` together with the
`internal/infrastructure/registry` error values (wrapped causes and
positions are not tracked; only error identity matters to the claims). -/
inductive GoErr where
  | errInvalidURL
  | errEmptyURL
  | errUnsupportedProtocol
  | errInvalidDomain
  | errInvalidIP
  | errNormalizationFailed
  | errBlockingRuleInvalid
  | errRegistryEntryInvalid
  | errInvalidFormat
  | errEmptyData
  | errParsingFailed
  | errUnsupportedFormat
  deriving DecidableEq

/-- Model of `domain.IsValidDomain`. -/
def IsValidDomain (d : Str) : Bool :=
  if d = [] then false
  else if d.length > 253 then false
  else if strHasPfx d ['.'] || strHasSfx d ['.'] then false
  else
    let parts := splitOnChar '.' d
    if parts.length < 2 then false
    else parts.all fun part =>
      !part.isEmpty && part.length ≤ 63 &&
        !(strHasPfx part ['-'] || strHasSfx part ['-'])

/-- `domain.BlockingType`. -/
inductive BlockingType where
  | Unknown
  | Domain
  | Wildcard
  | IP
  | URLPath
  | SNI
  deriving DecidableEq

/-- `BlockingType.String()`. -/
def BlockingType.toStr : BlockingType → Str
  | .Domain => "domain".toList
  | .Wildcard => "wildcard".toList
  | .IP => "ip".toList
  | .URLPath => "url_path".toList
  | .SNI => "sni".toList
  | .Unknown => "unknown".toList

/-- `domain.BlockingRule`. -/
structure BlockingRule where
  Type' : BlockingType
  Pattern : Str
  Original : Str
  Paths : List Str := []
  deriving DecidableEq

/-- `BlockingRule.validate`. -/
def BlockingRule.validate (br : BlockingRule) : Option GoErr :=
  match br.Type' with
  | .Domain => if IsValidDomain br.Pattern then none else some .errInvalidDomain
  | .Wildcard =>
    if IsValidDomain (strTrimPfx br.Pattern ('*' :: '.' :: [])) then none
    else some .errInvalidDomain
  | .IP => if IsValidIP br.Pattern then none else some .errInvalidIP
  | .URLPath => if br.Pattern = [] then some .errBlockingRuleInvalid else none
  | .SNI => if IsValidDomain br.Pattern then none else some .errInvalidDomain
  | .Unknown => some .errBlockingRuleInvalid

/-- `domain.NewBlockingRule`. -/
def NewBlockingRule (ruleType : BlockingType) (pattern : Str) :
    Except GoErr BlockingRule :=
  if pattern = [] then .error .errBlockingRuleInvalid
  else
    let rule : BlockingRule :=
      { Type' := ruleType, Pattern := pattern, Original := pattern }
    match rule.validate with
    | some e => .error e
    | none => .ok rule

/-- `domain.URL` (timestamps are not modelled). -/
structure URL where
  original : Str
  normalized : Str
  deriving DecidableEq

/-- `URL.IsValid`. -/
def URL.IsValid (u : URL) : Bool := !u.original.isEmpty && !u.normalized.isEmpty

/-- The `&domain.URL{}` zero value that `MemoryStore.IsBlocked` passes to
`BlockingRule.Matches` on the URL-pattern branch. -/
def emptyURL : URL := { original := [], normalized := [] }

/-- `BlockingRule.Matches`. -/
def BlockingRule.Matches (br : BlockingRule) (url : URL) : Bool :=
  if !url.IsValid then false
  else
    let normalized := url.normalized
    match br.Type' with
    | .Domain => normalized = br.Pattern
    | .Wildcard =>
      let dom := strTrimPfx br.Pattern ('*' :: '.' :: [])
      normalized = dom || strHasSfx normalized ('.' :: dom)
    | .IP => normalized = br.Pattern
    | .URLPath => strHasPfx normalized br.Pattern
    | .SNI => normalized = br.Pattern
    | .Unknown => false

/-- `domain.RegistryEntry` (dates and decision metadata are not
modelled; they never influence indexing or lookup). -/
structure RegistryEntry where
  ID : Str := []
  Type' : BlockingType
  Domain : Str := []
  IP : Str := []
  URL : Str := []
  Paths : List Str := []
  deriving DecidableEq

/-- `domain.NewRegistryEntry`. -/
def NewRegistryEntry (entryType : BlockingType) (value : Str) :
    Except GoErr RegistryEntry :=
  if value = [] then .error .errRegistryEntryInvalid
  else
    match entryType with
    | .Domain | .Wildcard | .SNI =>
      if !IsValidDomain value && !strHasPfx value ('*' :: '.' :: []) then
        .error .errInvalidDomain
      else .ok { Type' := entryType, Domain := value }
    | .IP =>
      if !IsValidIP value then .error .errInvalidIP
      else .ok { Type' := entryType, IP := value }
    | .URLPath => .ok { Type' := entryType, URL := value }
    | .Unknown => .error .errRegistryEntryInvalid

/-- `RegistryEntry.ToBlockingRule`. -/
def RegistryEntry.ToBlockingRule (re : RegistryEntry) :
    Except GoErr BlockingRule :=
  match re.Type' with
  | .Domain | .Wildcard | .SNI =>
    (NewBlockingRule re.Type' re.Domain).map fun r => { r with Paths := re.Paths }
  | .IP =>
    (NewBlockingRule re.Type' re.IP).map fun r => { r with Paths := re.Paths }
  | .URLPath =>
    (NewBlockingRule re.Type' re.URL).map fun r => { r with Paths := re.Paths }
  | .Unknown => .error .errBlockingRuleInvalid

/-- `RegistryEntry.IsValid`. -/
def RegistryEntry.IsValid (re : RegistryEntry) : Bool :=
  match re.Type' with
  | .Domain | .Wildcard | .SNI => !re.Domain.isEmpty
  | .IP => !re.IP.isEmpty
  | .URLPath => !re.URL.isEmpty
  | .Unknown => false

/-- `domain.Registry` (the `LastUpdated` timestamp is not modelled). -/
structure Registry where
  Entries : List RegistryEntry := []
  Version : Str := []
  Source : Str := []
  EntryCount : Nat := 0
  deriving DecidableEq

/-- `domain.NewRegistry`. -/
def NewRegistry : Registry := {}

/-- `Registry.AddEntry`; the returned registry is unchanged when the
entry is rejected. -/
def Registry.AddEntry (r : Registry) (entry : RegistryEntry) :
    Except GoErr Registry :=
  if !entry.IsValid then .error .errRegistryEntryInvalid
  else .ok { r with Entries := r.Entries ++ [entry], EntryCount := r.EntryCount + 1 }

/-- `Registry.GetEntriesByType`. -/
def Registry.GetEntriesByType (r : Registry) (t : BlockingType) :
    List RegistryEntry :=
  r.Entries.filter (fun e => e.Type' = t)

/-- `Registry.Size`. -/
def Registry.Size (r : Registry) : Nat := r.Entries.length

/-! ### The bloom filter (`internal/infrastructure/storage/bloom_filter.go`) -/

/-- `2 ^ 64`, the modulus of Go `uint64` arithmetic. -/
def two64 : Nat := 2 ^ 64

/-- UTF-8 encoding of one character (Go strings hash over UTF-8 bytes). -/
def utf8Bytes (c : Char) : List Nat :=
  let n := c.toNat
  if n < 0x80 then [n]
  else if n < 0x800 then [0xC0 + n / 64, 0x80 + n % 64]
  else if n < 0x10000 then [0xE0 + n / 4096, 0x80 + n / 64 % 64, 0x80 + n % 64]
  else [0xF0 + n / 262144, 0x80 + n / 4096 % 64, 0x80 + n / 64 % 64, 0x80 + n % 64]

/-- The UTF-8 byte sequence of a string. -/
def strBytes (s : Str) : List Nat := (s.map utf8Bytes).flatten

/-- FNV-1 64-bit offset basis. -/
def fnvOffset : Nat := 14695981039346656037

/-- FNV 64-bit prime. -/
def fnvPrime : Nat := 1099511628211

/-- One step of FNV-1: multiply, then xor the byte. -/
def fnv1Step (h b : Nat) : Nat := (h * fnvPrime % two64) ^^^ b

/-- One step of FNV-1a: xor the byte, then multiply. -/
def fnv1aStep (h b : Nat) : Nat := (h ^^^ b) * fnvPrime % two64

/-- Go `hash/fnv.New64` digest of a string (`getHashes` first hash). -/
def fnv1Hash (s : Str) : Nat := (strBytes s).foldl fnv1Step fnvOffset

/-- Go `hash/fnv.New64a` digest of a string (`getHashes` second hash). -/
def fnv1aHash (s : Str) : Nat := (strBytes s).foldl fnv1aStep fnvOffset

/-- `storage.BloomFilter`: 64-bit words, bit count `size`, hash count `k`. -/
structure BloomFilter where
  bits : List Nat
  size : Nat
  k : Nat

/-- The `i`-th probe bit position of `item` (Go computes
`hashes[0] + i*hashes[1]` in wrapping `uint64` arithmetic before the
reduction modulo `size`). -/
def BloomFilter.probe (bf : BloomFilter) (item : Str) (i : Nat) : Nat :=
  (fnv1Hash item + i * fnv1aHash item) % two64 % bf.size

/-- The body of the `Add` loop: set bit `index` of the word array. -/
def addIdx (b : BloomFilter) (index : Nat) : BloomFilter :=
  { b with bits :=
      b.bits.set (index / 64) ((b.bits.getD (index / 64) 0) ||| (1 <<< (index % 64))) }

/-- `BloomFilter.Add`. -/
def BloomFilter.Add (bf : BloomFilter) (item : Str) : BloomFilter :=
  (List.range bf.k).foldl (fun b i => addIdx b (b.probe item i)) bf

/-- `BloomFilter.Contains`. -/
def BloomFilter.Contains (bf : BloomFilter) (item : Str) : Bool :=
  (List.range bf.k).all fun i =>
    let index := bf.probe item i
    (bf.bits.getD (index / 64) 0).testBit (index % 64)

/-- `BloomFilter.Clear`. -/
def BloomFilter.Clear (bf : BloomFilter) : BloomFilter :=
  { bf with bits := List.replicate bf.bits.length 0 }

/-- `BloomFilter.Size`. -/
def BloomFilter.Size (bf : BloomFilter) : Nat := bf.size

/-- `BloomFilter.HashFunctions`. -/
def BloomFilter.HashFunctions (bf : BloomFilter) : Nat := bf.k

/-- `storage.NewBloomFilter`.  The Go code computes `m` and `k` in
`float64` arithmetic and converts with truncating `uint64(...)` casts;
this is modelled over the reals with `Int.floor`.  (The floating-point
rounding error of the Go computation is not modelled; every numeric fact
proved below holds with margin far exceeding one double-precision ulp.) -/
noncomputable def NewBloomFilter (n0 : Nat) (p0 : ℝ) : BloomFilter :=
  let n : Nat := if n0 = 0 then 1000000 else n0
  let p : ℝ := if p0 ≤ 0 ∨ 1 ≤ p0 then 1 / 100 else p0
  let m : Nat := (⌊-(n : ℝ) * Real.log p / (Real.log 2 * Real.log 2)⌋).toNat
  let k0 : Nat := (⌊(m : ℝ) / (n : ℝ) * Real.log 2⌋).toNat
  let k1 : Nat := if k0 = 0 then 1 else k0
  let k : Nat := if k1 > 10 then 10 else k1
  { bits := List.replicate ((m + 63) / 64) 0, size := m, k := k }

/-! ### The radix tree (`storage.RadixTree`) -/

/-- Model of `RadixTree.longestCommonPrefix`. -/
def lcp : Str → Str → Str
  | a :: s, b :: t => if a = b then a :: lcp s t else []
  | _, _ => []

/-- `storage.radixNode`: edge label, children keyed by their first byte,
end marker, and the stored value (`nil` when not an end node). -/
inductive RNode (V : Type) where
  | mk (key : Str) (children : List (Char × RNode V)) (isEnd : Bool) (value : Option V)

namespace RNode

variable {V : Type}

/-- The node's own edge label. -/
def key : RNode V → Str | .mk k _ _ _ => k

/-- The node's children, keyed by first byte. -/
def children : RNode V → List (Char × RNode V) | .mk _ ch _ _ => ch

/-- The end-of-key marker. -/
def isEnd : RNode V → Bool | .mk _ _ e _ => e

/-- The stored value. -/
def value : RNode V → Option V | .mk _ _ _ v => v

@[simp] theorem key_mk (k : Str) (ch : List (Char × RNode V)) (e : Bool) (v : Option V) :
    (RNode.mk k ch e v).key = k := rfl

@[simp] theorem children_mk (k : Str) (ch : List (Char × RNode V)) (e : Bool) (v : Option V) :
    (RNode.mk k ch e v).children = ch := rfl

@[simp] theorem isEnd_mk (k : Str) (ch : List (Char × RNode V)) (e : Bool) (v : Option V) :
    (RNode.mk k ch e v).isEnd = e := rfl

@[simp] theorem value_mk (k : Str) (ch : List (Char × RNode V)) (e : Bool) (v : Option V) :
    (RNode.mk k ch e v).value = v := rfl

end RNode

/-- Go map indexing `node.children[c]`. -/
def findChild {V : Type} (c : Char) : List (Char × RNode V) → Option (RNode V)
  | [] => none
  | (a, n) :: rest => if a = c then some n else findChild c rest

/-- Go map assignment `node.children[c] = n` (upsert). -/
def setChild {V : Type} (c : Char) (n : RNode V) :
    List (Char × RNode V) → List (Char × RNode V)
  | [] => [(c, n)]
  | (a, m) :: rest => if a = c then (c, n) :: rest else (a, m) :: setChild c n rest

/-- Model of `RadixTree.search` (the recursive helper), with an explicit
structural fuel so the definition evaluates by reduction.  Under the
children invariant (nonempty child labels), each recursion step consumes
at least one key character, so the fuel `key.length + 1` supplied by
`searchN` is never exhausted; the fuel-out branch models the infinite
loop the Go code would enter on a malformed tree, which the code never
builds. -/
def searchF {V : Type} : Nat → RNode V → Str → Option (RNode V)
  | 0, _, _ => none
  | _ + 1, n, [] => some n
  | fuel + 1, n, c :: k' =>
    match findChild c n.children with
    | none => none
    | some child =>
      if pfxOf child.key (c :: k') then searchF fuel child ((c :: k').drop child.key.length)
      else none

/-- Model of `RadixTree.search`. -/
def searchN {V : Type} (n : RNode V) (k : Str) : Option (RNode V) :=
  searchF (k.length + 1) n k

/-- Model of `RadixTree.insert` (the recursive helper), fuelled like
`searchF`.  The returned `Bool` records whether `rt.size` was
incremented, which the Go code does exactly when a new end marker is
created.  The `(n, false)` default branches are unreachable: they
require `lcp child.key key` not to be a prefix of `child.key` or of
`key`. -/
def insertF {V : Type} : Nat → RNode V → Str → V → RNode V × Bool
  | 0, n, _, _ => (n, false)
  | _ + 1, n, [], v => (.mk n.key n.children true (some v), !n.isEnd)
  | fuel + 1, n, c :: kt, v =>
    match findChild c n.children with
    | none =>
      (.mk n.key (setChild c (.mk (c :: kt) [] true (some v)) n.children) n.isEnd n.value,
        true)
    | some child =>
      let cp := lcp child.key (c :: kt)
      if cp = child.key then
        let r := insertF fuel child ((c :: kt).drop cp.length) v
        (.mk n.key (setChild c r.1 n.children) n.isEnd n.value, r.2)
      else if cp = c :: kt then
        match child.key.drop cp.length with
        | [] => (n, false)
        | d :: ds =>
          let splitNode : RNode V := .mk (d :: ds) child.children child.isEnd child.value
          (.mk n.key (setChild c (.mk cp [(d, splitNode)] true (some v)) n.children)
            n.isEnd n.value, true)
      else
        match child.key.drop cp.length, (c :: kt).drop cp.length with
        | d1 :: ds1, d2 :: ds2 =>
          let existingNode : RNode V := .mk (d1 :: ds1) child.children child.isEnd child.value
          let newNode : RNode V := .mk (d2 :: ds2) [] true (some v)
          (.mk n.key (setChild c (.mk cp [(d1, existingNode), (d2, newNode)] false none)
            n.children) n.isEnd n.value, true)
        | _, _ => (n, false)

/-- Model of `RadixTree.insert`. -/
def insertN {V : Type} (n : RNode V) (k : Str) (v : V) : RNode V × Bool :=
  insertF (k.length + 1) n k v

/-- `storage.RadixTree`. -/
structure RadixTree (V : Type) where
  root : RNode V
  size : Nat

/-- `storage.NewRadixTree`. -/
def NewRadixTree {V : Type} : RadixTree V := ⟨.mk [] [] false none, 0⟩

/-- `RadixTree.Insert`. -/
def RadixTree.Insert {V : Type} (t : RadixTree V) (key : Str) (v : V) : RadixTree V :=
  if key = [] then t
  else
    let r := insertN t.root key v
    ⟨r.1, t.size + if r.2 then 1 else 0⟩

/-- `RadixTree.Search`. -/
def RadixTree.Search {V : Type} (t : RadixTree V) (key : Str) : Option V :=
  if key = [] then none
  else
    match searchN t.root key with
    | some m => if m.isEnd then m.value else none
    | none => none

/-- `RadixTree.Size`. -/
def RadixTree.Size {V : Type} (t : RadixTree V) : Nat := t.size

/-- The probe loop of `RadixTree.MatchesWildcard`: for `i` from 1 to
`parts.len - 1`, search the suffix `join(parts[i:], ".")` and return the
first hit. -/
def wildProbe {V : Type} (t : RadixTree V) : List Str → Option V
  | [] => none
  | _ :: rest =>
    if rest.isEmpty then none
    else
      match t.Search (joinDots rest) with
      | some v => some v
      | none => wildProbe t rest

/-- `RadixTree.MatchesWildcard`. -/
def RadixTree.MatchesWildcard {V : Type} (t : RadixTree V) (d : Str) : Option V :=
  wildProbe t (splitOnChar '.' d)

/-! ### Model of Go `net/url.Parse`, restricted to the `Host` field

The repository only ever reads `parsedURL.Host` (in the normalizer and
in `extractDomainFromURL`), so the model parses exactly far enough to
produce that field: scheme recognition, authority extraction, userinfo
stripping, port validation and host-character validation.  Percent
escapes in the host are not modelled (treated as parse errors, where Go
would decode them), and userinfo characters are not validated. -/

/-- The characters Go `net/url` accepts unescaped inside a host
(`shouldEscape(c, encodeHost) == false`), plus all non-ASCII bytes. -/
def allowedHostChar (c : Char) : Bool :=
  isAlnumCh c ||
    (c = '-' || c = '_' || c = '.' || c = '~' || c = '!' || c = '$' || c = '&' ||
     c = '\'' || c = '(' || c = ')' || c = '*' || c = '+' || c = ',' || c = ';' ||
     c = '=' || c = ':' || c = '[' || c = ']' || c = '<' || c = '>' || c = '"') ||
    decide (c.toNat ≥ 0x80)

/-- Go `net/url.validOptionalPort`. -/
def validOptionalPort (port : Str) : Bool :=
  match port with
  | [] => true
  | ':' :: digits => digits.all isDigitCh
  | _ => false

/-- Go `net/url.getScheme`: splits `scheme:rest`, or returns the whole
string when no scheme is present, or fails on `":..."`. -/
def getScheme (s : Str) : Except GoErr (Str × Str) :=
  go s [] 0
where
  go : Str → Str → Nat → Except GoErr (Str × Str)
    | [], _, _ => .ok ([], s)
    | c :: rest, acc, i =>
      if isAlphaCh c then go rest (c :: acc) (i + 1)
      else if isDigitCh c || c = '+' || c = '-' || c = '.' then
        if i = 0 then .ok ([], s) else go rest (c :: acc) (i + 1)
      else if c = ':' then
        if i = 0 then .error .errInvalidURL else .ok (acc.reverse, rest)
      else .ok ([], s)

/-- Go `net/url.parseHost` (validation only; the returned `Host` keeps
brackets and any port, exactly as `url.URL.Host` does). -/
def parseHost (host : Str) : Except GoErr Str :=
  let portOK : Bool :=
    if strHasPfx host ['['] then
      match lastIdx ']' host with
      | none => false
      | some i => validOptionalPort (host.drop (i + 1))
    else
      match lastIdx ':' host with
      | some i => validOptionalPort (host.drop i)
      | none => true
  if portOK && host.all allowedHostChar then .ok host else .error .errInvalidURL

/-- `url.Parse(rawURL).Host`: empty when the URL has no authority. -/
def urlParseHost (rawURL : Str) : Except GoErr Str :=
  if rawURL.any (fun c => c.toNat < 0x20 || c.toNat = 0x7f) then .error .errInvalidURL
  else
    match getScheme rawURL with
    | .error e => .error e
    | .ok (_, rest) =>
      if pfxOf ('/' :: '/' :: []) rest then
        let auth := (rest.drop 2).takeWhile fun c => ¬(c = '/' ∨ c = '?' ∨ c = '#')
        let hostPart :=
          match lastIdx '@' auth with
          | some i => auth.drop (i + 1)
          | none => auth
        parseHost hostPart
      else .ok []

/-! ### The in-memory index (`storage.MemoryStore`) -/

/-- `domain.BlockingResult` (the `CheckedAt` timestamp is not modelled). -/
structure BlockingResult where
  IsBlocked : Bool
  NormalizedURL : Str
  Rule : Option BlockingRule
  Reason : BlockingType
  deriving DecidableEq

/-- `domain.NewBlockingResult`. -/
def NewBlockingResult (isBlocked : Bool) (normalizedURL : Str)
    (rule : Option BlockingRule) : BlockingResult :=
  { IsBlocked := isBlocked
    NormalizedURL := normalizedURL
    Rule := rule
    Reason := match rule with
      | some r => r.Type'
      | none => .Unknown }

/-- First-match lookup in an association list (Go map indexing; the
lists below are maintained with upsert, so keys are unique). -/
def mapLookup {A : Type} : List (Str × A) → Str → Option A
  | [], _ => none
  | (k', v) :: rest, k => if k' = k then some v else mapLookup rest k

/-- Go map assignment: replace the binding if the key is present,
otherwise append it. -/
def mapUpsert {A : Type} : List (Str × A) → Str → A → List (Str × A)
  | [], k, v => [(k, v)]
  | (k', v') :: rest, k, v =>
    if k' = k then (k, v) :: rest else (k', v') :: mapUpsert rest k v

/-- `storage.MemoryStore` (the lock and the `lastUpdate` timestamp are
not modelled; lookups and updates act on one snapshot value). -/
structure MemoryStore where
  domains : List (Str × BlockingRule)
  wildcards : RadixTree BlockingRule
  ips : List (Str × BlockingRule)
  urlPatterns : List (Str × List BlockingRule)
  bloom : BloomFilter
  entryCount : Nat
  version : Str

/-- `storage.NewMemoryStore`. -/
noncomputable def NewMemoryStore : MemoryStore :=
  { domains := []
    wildcards := NewRadixTree
    ips := []
    urlPatterns := []
    bloom := NewBloomFilter 1000000 (1 / 100)
    entryCount := 0
    version := [] }

/-- `MemoryStore.IsBlocked`.  (Go type-asserts the radix-tree value to
`*domain.BlockingRule`; the model stores `BlockingRule` values, so the
assertion always succeeds.) -/
def MemoryStore.IsBlocked (ms : MemoryStore) (normalizedURL : Str) : BlockingResult :=
  if normalizedURL = [] then NewBlockingResult false normalizedURL none
  else if ms.bloom.Contains normalizedURL = false then
    NewBlockingResult false normalizedURL none
  else
    match mapLookup ms.domains normalizedURL with
    | some rule => NewBlockingResult true normalizedURL (some rule)
    | none =>
      match mapLookup ms.ips normalizedURL with
      | some rule => NewBlockingResult true normalizedURL (some rule)
      | none =>
        match ms.wildcards.MatchesWildcard normalizedURL with
        | some rule => NewBlockingResult true normalizedURL (some rule)
        | none =>
          match mapLookup ms.urlPatterns normalizedURL with
          | some patterns =>
            match patterns.find? (fun rule => rule.Matches emptyURL) with
            | some rule => NewBlockingResult true normalizedURL (some rule)
            | none => NewBlockingResult false normalizedURL none
          | none => NewBlockingResult false normalizedURL none

/-- `storage.extractDomainFromURL`. -/
def extractDomainFromURL (rawURL : Str) : Str :=
  if rawURL = [] then []
  else
    let raw :=
      if strContainsSub rawURL (':' :: '/' :: '/' :: []) then rawURL
      else ('h' :: 't' :: 't' :: 'p' :: ':' :: '/' :: '/' :: []) ++ rawURL
    match urlParseHost raw with
    | .error _ => []
    | .ok host => host

/-- The private composite that `MemoryStore.Update` builds off to the
side before swapping. -/
structure IndexBuild where
  domains : List (Str × BlockingRule)
  wildcards : RadixTree BlockingRule
  ips : List (Str × BlockingRule)
  urlPatterns : List (Str × List BlockingRule)
  bloom : BloomFilter

/-- One iteration of the `Update` build loop over a registry entry. -/
def updateStep (acc : IndexBuild) (entry : RegistryEntry) : IndexBuild :=
  match entry.ToBlockingRule with
  | .error _ => acc
  | .ok rule =>
    match entry.Type' with
    | .Domain =>
      { acc with domains := mapUpsert acc.domains entry.Domain rule
                 bloom := acc.bloom.Add entry.Domain }
    | .Wildcard =>
      let pattern :=
        if strHasPfx entry.Domain ('*' :: '.' :: []) then
          strTrimPfx entry.Domain ('*' :: '.' :: [])
        else entry.Domain
      { acc with wildcards := acc.wildcards.Insert pattern rule
                 bloom := acc.bloom.Add pattern }
    | .IP =>
      { acc with ips := mapUpsert acc.ips entry.IP rule
                 bloom := acc.bloom.Add entry.IP }
    | .URLPath =>
      let dom := extractDomainFromURL entry.URL
      if dom ≠ [] then
        { acc with
            urlPatterns :=
              mapUpsert acc.urlPatterns dom
                ((mapLookup acc.urlPatterns dom).getD [] ++ [rule])
            bloom := acc.bloom.Add dom }
      else acc
    | .SNI =>
      { acc with domains := mapUpsert acc.domains entry.Domain rule
                 bloom := acc.bloom.Add entry.Domain }
    | .Unknown => acc

/-- `MemoryStore.Update`, in Go a mutating method returning an error;
modelled as returning the post-call store together with the error. -/
noncomputable def MemoryStore.Update (ms : MemoryStore) (registry : Option Registry) :
    MemoryStore × Option GoErr :=
  match registry with
  | none => (ms, some .errRegistryEntryInvalid)
  | some registry =>
    let init : IndexBuild :=
      ⟨[], NewRadixTree, [], [], NewBloomFilter registry.Entries.length (1 / 100)⟩
    let b := registry.Entries.foldl updateStep init
    ({ domains := b.domains
       wildcards := b.wildcards
       ips := b.ips
       urlPatterns := b.urlPatterns
       bloom := b.bloom
       entryCount := registry.Entries.length
       version := registry.Version }, none)

/-- `storage.StoreStats` (the `LastUpdate` timestamp is not modelled). -/
structure StoreStats where
  TotalEntries : Nat
  DomainEntries : Nat
  WildcardEntries : Nat
  IPEntries : Nat
  URLPatterns : Nat
  Version : Str
  BloomFilterSize : Nat

/-- `MemoryStore.Stats`. -/
def MemoryStore.Stats (ms : MemoryStore) : StoreStats :=
  { TotalEntries := ms.entryCount
    DomainEntries := ms.domains.length
    WildcardEntries := ms.wildcards.Size
    IPEntries := ms.ips.length
    URLPatterns := ms.urlPatterns.length
    Version := ms.version
    BloomFilterSize := ms.bloom.Size }

/-! ### The URL normalizer (`internal/infrastructure/normalizer`) -/

/-- The regex `:\d+$` applied to the substring from the last colon on
(that substring starts with `':'` and contains no other colon, so the
regex matches exactly when a nonempty digit string follows). -/
def portTailMatch : Str → Bool
  | ':' :: tail => !tail.isEmpty && tail.all isDigitCh
  | _ => false

/-- `URLNormalizer.removePort`: strips a trailing `:digits`, except when
the host contains `::`. -/
def removePort (host : Str) : Str :=
  if strContainsSub host [':'] && !strContainsSub host (':' :: ':' :: []) then
    match lastIdx ':' host with
    | some idx => if portTailMatch (host.drop idx) then host.take idx else host
    | none => host
  else host

/-- Modelled from the external library `golang.org/x/net/idna` (profile
`ValidateLabels(true), VerifyDNSLength(true), StrictDomainName(false)`),
which is not part of this repository: on all-ASCII input the profile
returns the input unchanged (the caller has already lower-cased it, and
the repository's own `IsValidDomain` check follows immediately);
Punycode conversion of non-ASCII input is not modelled and is returned
as an error. -/
def toASCII (host : Str) : Except GoErr Str :=
  if host.all (fun c => c.toNat < 128) then .ok host else .error .errNormalizationFailed

/-- `URLNormalizer.normalizeDomain`. -/
def normalizeDomain (host : Str) : Except GoErr Str :=
  match toASCII host with
  | .error _ => .error .errNormalizationFailed
  | .ok ascii =>
    let normalized := strToLower ascii
    let normalized :=
      if strHasPfx normalized ('w' :: 'w' :: 'w' :: '.' :: []) then
        let withoutWWW := normalized.drop 4
        if IsValidDomain withoutWWW then withoutWWW else normalized
      else normalized
    if IsValidDomain normalized then .ok normalized else .error .errInvalidDomain

/-- Go `strings.Trim(host, "[]")`: both ends trimmed of the cutset. -/
def trimBrackets (s : Str) : Str :=
  let inBr : Char → Bool := fun c => c = '[' || c = ']'
  ((s.dropWhile inBr).reverse.dropWhile inBr).reverse

/-- `URLNormalizer.Normalize`. -/
def Normalize (rawURL0 : Str) : Except GoErr Str :=
  if rawURL0 = [] then .error .errEmptyURL
  else
    let rawURL1 := trimSpace rawURL0
    let rawURL :=
      if strContainsSub rawURL1 (':' :: '/' :: '/' :: []) then rawURL1
      else ('h' :: 't' :: 't' :: 'p' :: ':' :: '/' :: '/' :: []) ++ rawURL1
    match urlParseHost rawURL with
    | .error _ => .error .errInvalidURL
    | .ok host0 =>
      if host0 = [] then .error .errInvalidURL
      else
        let host := strToLower (removePort host0)
        match parseIP host with
        | some ip => .ok (normalizeIP ip)
        | none =>
          if strHasPfx host ['['] && strHasSfx host [']'] then
            match parseIP (trimBrackets host) with
            | some ip => .ok (normalizeIP ip)
            | none => .error .errInvalidIP
          else normalizeDomain host

/-! ### The registry parser (`internal/infrastructure/registry/parser.go`) -/

/-- One DNS label as matched by the parser's `domainPattern` regex
fragment `[a-zA-Z0-9]([a-zA-Z0-9\-]{0,61}[a-zA-Z0-9])?`. -/
def labelOK (l : Str) : Bool :=
  match l with
  | [] => false
  | [c] => isAlnumCh c
  | c :: rest =>
    match rest.getLast? with
    | none => false
    | some z =>
      isAlnumCh c && isAlnumCh z &&
        rest.dropLast.all (fun x => isAlnumCh x || x = '-') &&
        (c :: rest).length ≤ 63

/-- The parser's `domainPattern` regex: dot-separated labels. -/
def domainPatternMatch (s : Str) : Bool := (splitOnChar '.' s).all labelOK

/-- The parser's `wildcardPattern` regex: `*.` followed by labels. -/
def wildcardPatternMatch (s : Str) : Bool :=
  strHasPfx s ('*' :: '.' :: []) && domainPatternMatch (s.drop 2)

/-- `Parser.stripProtocol`. -/
def stripProtocol (entry : Str) : Str :=
  let protos : List Str := ["https://".toList, "http://".toList, "ftp://".toList]
  match protos.find? (fun p => strHasPfx (strToLower entry) p) with
  | some p => entry.drop p.length
  | none => entry

/-- `Parser.isIPAddress`: a `host:port` with a single colon is tested
with the port removed. -/
def parserIsIPAddress (entry : Str) : Bool :=
  let entry' :=
    if strContainsSub entry [':'] && !strContainsSub entry (':' :: ':' :: []) then
      let parts := splitOnChar ':' entry
      if parts.length = 2 then parts.getD 0 [] else entry
    else entry
  (parseIP entry').isSome

/-- `Parser.categorizeEntry`. -/
def categorizeEntry (registry : Registry) (entry0 : Str) : Except GoErr Registry :=
  let entry := stripProtocol (strToLower entry0)
  let classified : Option (BlockingType × Str) :=
    if strHasPfx entry ('*' :: '.' :: []) then
      if wildcardPatternMatch entry then some (.Wildcard, entry) else none
    else if parserIsIPAddress entry then some (.IP, entry)
    else if strContainsSub entry ['/'] then some (.URLPath, entry)
    else if domainPatternMatch entry then some (.Domain, entry)
    else none
  match classified with
  | none => .error .errParsingFailed
  | some (bt, value) =>
    match NewRegistryEntry bt value with
    | .error e => .error e
    | .ok re =>
      let re :=
        if registry.Entries.length > 0 then
          { re with ID := "rkn_".toList ++ Nat.toDigits 10 registry.Entries.length }
        else re
      registry.AddEntry re

/-- `Parser.parseCSVRecord`; per-token errors are swallowed, and the
caller swallows this function's own errors, so it is modelled as a
total registry transformer. -/
def parseCSVRecord (registry : Registry) (record : List Str) : Registry :=
  if record.length < 2 then registry
  else
    let urlField := trimSpace (record.getD 1 [])
    if urlField = [] then registry
    else
      (splitOnChar '|' urlField).foldl
        (fun reg tok =>
          let tok := trimSpace tok
          if tok = [] then reg
          else
            match categorizeEntry reg tok with
            | .ok reg' => reg'
            | .error _ => reg)
        registry

/-- Model of `encoding/csv.Reader` as configured by `parseCSVText`
(`Comma=';'`, `LazyQuotes`, `TrimLeadingSpace`): lines split on `'\n'`
with a trailing `'\r'` stripped, blank lines skipped, fields split on
`';'` with leading whitespace trimmed.  Quote processing is not
modelled (quotes read literally, as `LazyQuotes` largely permits).  A
record whose field count differs from the first record's aborts the
read with an error (the `FieldsPerRecord = 0` default). -/
def csvReadRecords (text : Str) : Except GoErr (List (List Str)) :=
  let lines := (splitOnChar '\n' text).map fun l =>
    if strHasSfx l ['\r'] then l.dropLast else l
  let lines := lines.filter (fun l => l ≠ [])
  let records := lines.map fun l =>
    (splitOnChar ';' l).map (fun f => f.dropWhile isSpaceCh)
  match records with
  | [] => .ok []
  | r0 :: _ =>
    if records.all (fun r => r.length = r0.length) then .ok records
    else .error .errParsingFailed

/-- `Parser.parseCSVText`: the first line is a header; per-record errors
skip the record; zero surviving entries reject the file. -/
def parseCSVText (text : Str) : Except GoErr Registry :=
  match csvReadRecords text with
  | .error e => .error e
  | .ok records =>
    let init : Registry := { NewRegistry with Source := "RKN Registry".toList }
    let reg := (records.drop 1).foldl parseCSVRecord init
    if reg.Size = 0 then .error .errParsingFailed else .ok reg

/-- `Parser.parseCSV`: tries UTF-8, then Windows-1251.  Both byte
decodings are the identity in the character-list model, so the second
attempt repeats the first. -/
def parseCSV (data : Str) : Except GoErr Registry :=
  match parseCSVText data with
  | .ok r => .ok r
  | .error _ => parseCSVText data

/-- `Parser.parseZIP`, modelled over the list of `(name, content)` files
that `archive/zip` would extract from the data: the first `*.csv` member
that parses into a non-empty registry wins. -/
def parseZIPFiles (files : List (Str × Str)) : Except GoErr Registry :=
  match files with
  | [] => .error .errParsingFailed
  | (name, content) :: rest =>
    if strHasSfx (strToLower name) ('.' :: 'c' :: 's' :: 'v' :: []) then
      match parseCSV content with
      | .ok r => .ok r
      | .error _ => parseZIPFiles rest
    else parseZIPFiles rest

/-- `Parser.detectFormat`. -/
def detectFormat (data : Str) : Except GoErr Str :=
  if data.length < 4 then .error .errInvalidFormat
  else if pfxOf ['P', 'K', '\x03', '\x04'] data ∨ pfxOf ['P', 'K', '\x05', '\x06'] data ∨
      pfxOf ['P', 'K', '\x07', '\x08'] data then .ok ('z' :: 'i' :: 'p' :: [])
  else if strContainsSub (data.take 1024) [';'] || strContainsSub (data.take 1024) [','] then
    .ok ('c' :: 's' :: 'v' :: [])
  else .error .errUnsupportedFormat

/-- `Parser.Parse`.  `zipFiles` models the `archive/zip` extraction of
`data` for the ZIP branch (binary DEFLATE decoding is outside the
model). -/
def Parse (data : Str) (zipFiles : List (Str × Str)) : Except GoErr Registry :=
  if data.length = 0 then .error .errEmptyData
  else
    match detectFormat data with
    | .error e => .error e
    | .ok f =>
      if f = ('z' :: 'i' :: 'p' :: []) then parseZIPFiles zipFiles
      else if f = ('c' :: 's' :: 'v' :: []) then parseCSV data
      else .error .errUnsupportedFormat

/-! ### Helper lemmas: prefixes -/

theorem pfxOf_iff : ∀ (p s : Str), pfxOf p s = true ↔ ∃ t, p ++ t = s := by
  intro p
  induction p with
  | nil => intro s; simp [pfxOf]
  | cons a p ih =>
    intro s
    cases s with
    | nil => simp [pfxOf]
    | cons b s =>
      simp only [pfxOf, Bool.and_eq_true, decide_eq_true_eq, ih, List.cons_append,
        List.cons.injEq]
      constructor
      · rintro ⟨rfl, t, rfl⟩; exact ⟨t, rfl, rfl⟩
      · rintro ⟨t, rfl, rfl⟩; exact ⟨rfl, t, rfl⟩

theorem pfxOf_append (p t : Str) : pfxOf p (p ++ t) = true :=
  (pfxOf_iff p (p ++ t)).2 ⟨t, rfl⟩

theorem pfxOf_refl (p : Str) : pfxOf p p = true := by
  simpa using pfxOf_append p []

theorem pfxOf_length_le {p s : Str} (h : pfxOf p s = true) : p.length ≤ s.length := by
  obtain ⟨t, rfl⟩ := (pfxOf_iff p s).1 h
  simp

theorem eq_of_pfxOf_of_length {p s : Str} (h : pfxOf p s = true)
    (hl : s.length ≤ p.length) : p = s := by
  obtain ⟨t, rfl⟩ := (pfxOf_iff p s).1 h
  simp at hl
  simp [hl]

/-! ### Helper lemmas: the bloom filter -/

theorem list_set_oob {A : Type} : ∀ (l : List A) (i : Nat) (x : A),
    l.length ≤ i → l.set i x = l := by
  intro l
  induction l with
  | nil => intros; rfl
  | cons a t ih =>
    intro i x h
    cases i with
    | zero => simp at h
    | succ j => simpa [List.set] using ih j x (by simpa using h)

theorem getD_set_self {A : Type} (l : List A) (i : Nat) (x d : A) (h : i < l.length) :
    (l.set i x).getD i d = x := by
  simp [List.getD, List.getElem?_set_self h]

theorem getD_set_ne {A : Type} (l : List A) (i j : Nat) (x d : A) (h : i ≠ j) :
    (l.set i x).getD j d = l.getD j d := by
  simp [List.getD, List.getElem?_set_ne h]

@[simp] theorem addIdx_size (b : BloomFilter) (i : Nat) : (addIdx b i).size = b.size := rfl

@[simp] theorem addIdx_k (b : BloomFilter) (i : Nat) : (addIdx b i).k = b.k := rfl

@[simp] theorem addIdx_bits_length (b : BloomFilter) (i : Nat) :
    (addIdx b i).bits.length = b.bits.length := by
  simp [addIdx]

theorem probe_congr {b b' : BloomFilter} (h : b.size = b'.size) (item : Str) (i : Nat) :
    b.probe item i = b'.probe item i := by
  simp [BloomFilter.probe, h]

theorem testBit_addIdx_mono (b : BloomFilter) (idx w t : Nat)
    (h : ((b.bits.getD w 0).testBit t) = true) :
    (((addIdx b idx).bits.getD w 0).testBit t) = true := by
  unfold addIdx
  by_cases hw : idx / 64 = w
  · subst hw
    by_cases hl : idx / 64 < b.bits.length
    · rw [getD_set_self _ _ _ _ hl]
      simp only [Nat.testBit_or, h, Bool.true_or]
    · rw [list_set_oob _ _ _ (by omega)]
      exact h
  · rw [getD_set_ne _ _ _ _ _ hw]
    exact h

theorem testBit_addIdx_self (b : BloomFilter) (idx : Nat) (h : idx / 64 < b.bits.length) :
    ((addIdx b idx).bits.getD (idx / 64) 0).testBit (idx % 64) = true := by
  unfold addIdx
  rw [getD_set_self _ _ _ _ h]
  simp

theorem fold_addIdx_spec (item : Str) : ∀ (L : List Nat) (b : BloomFilter),
    (L.foldl (fun x i => addIdx x (x.probe item i)) b).size = b.size ∧
    (L.foldl (fun x i => addIdx x (x.probe item i)) b).k = b.k ∧
    (L.foldl (fun x i => addIdx x (x.probe item i)) b).bits.length = b.bits.length ∧
    (∀ w t, (b.bits.getD w 0).testBit t = true →
      ((L.foldl (fun x i => addIdx x (x.probe item i)) b).bits.getD w 0).testBit t = true) ∧
    (0 < b.size → b.size ≤ 64 * b.bits.length →
      ∀ i ∈ L, (((L.foldl (fun x i => addIdx x (x.probe item i)) b).bits.getD
        (b.probe item i / 64) 0).testBit (b.probe item i % 64)) = true) := by
  intro L
  induction L with
  | nil => intro b; exact ⟨rfl, rfl, rfl, fun w t h => h, fun _ _ i hi => absurd hi (by simp)⟩
  | cons i0 rest ih =>
    intro b
    rw [List.foldl_cons]
    set b1 := addIdx b (b.probe item i0) with hb1
    obtain ⟨hsz, hk, hlen, hmono, hset⟩ := ih b1
    have hsz1 : b1.size = b.size := rfl
    have hk1 : b1.k = b.k := rfl
    have hlen1 : b1.bits.length = b.bits.length := by
      rw [hb1, addIdx_bits_length]
    refine ⟨by rw [hsz, hsz1], by rw [hk, hk1], by rw [hlen, hlen1], ?_, ?_⟩
    · intro w t h
      exact hmono w t (testBit_addIdx_mono b _ w t h)
    · intro hpos hbound i hi
      have hdiv : b.probe item i / 64 < b.bits.length := by
        have : b.probe item i < b.size := Nat.mod_lt _ hpos
        omega
      rcases List.mem_cons.1 hi with rfl | hmem
      · -- the head index was set in b1 and persists through the fold
        exact hmono _ _ (testBit_addIdx_self b _ hdiv)
      · -- indices in the tail are set by the recursive fold
        have hres := hset (by rw [hsz1]; exact hpos)
          (by rw [hsz1, hlen1]; exact hbound) i hmem
        have hpp : b1.probe item i = b.probe item i := probe_congr hsz1 item i
        rw [hpp] at hres
        exact hres

/-- After `Add(item)`, `Contains(item)` holds, provided the word array
covers the bit range (as the constructor guarantees). -/
theorem Add_Contains_self (bf : BloomFilter) (item : Str) (hm0 : 0 < bf.size)
    (hlen : bf.size ≤ 64 * bf.bits.length) : (bf.Add item).Contains item = true := by
  unfold BloomFilter.Add BloomFilter.Contains
  obtain ⟨hsz, hk, hlen', hmono, hset⟩ := fold_addIdx_spec item (List.range bf.k) bf
  rw [List.all_eq_true]
  intro i hi
  rw [hk] at hi
  have := hset hm0 hlen i hi
  have hpp : ((List.range bf.k).foldl (fun x i => addIdx x (x.probe item i)) bf).probe item i
      = bf.probe item i := probe_congr hsz item i
  simpa [hpp] using this

/-! ### Helper lemmas: update build -/

theorem updateStep_error (a : IndexBuild) (e : RegistryEntry)
    (h : e.ToBlockingRule.isOk = false) : updateStep a e = a := by
  unfold updateStep
  cases he : e.ToBlockingRule with
  | error err => rfl
  | ok rule => rw [he] at h; simp [Except.isOk, Except.toBool] at h

theorem updateStep_components (e : RegistryEntry) (a1 a2 : IndexBuild)
    (h1 : a1.domains = a2.domains) (h2 : a1.wildcards = a2.wildcards)
    (h3 : a1.ips = a2.ips) (h4 : a1.urlPatterns = a2.urlPatterns) :
    (updateStep a1 e).domains = (updateStep a2 e).domains ∧
    (updateStep a1 e).wildcards = (updateStep a2 e).wildcards ∧
    (updateStep a1 e).ips = (updateStep a2 e).ips ∧
    (updateStep a1 e).urlPatterns = (updateStep a2 e).urlPatterns := by
  cases he : e.ToBlockingRule with
  | error err => simp [updateStep, he, h1, h2, h3, h4]
  | ok rule =>
    cases ht : e.Type' with
    | Unknown => simp [updateStep, he, ht, h1, h2, h3, h4]
    | Domain => simp [updateStep, he, ht, h1, h2, h3, h4]
    | Wildcard => simp [updateStep, he, ht, h1, h2, h3, h4]
    | IP => simp [updateStep, he, ht, h1, h2, h3, h4]
    | SNI => simp [updateStep, he, ht, h1, h2, h3, h4]
    | URLPath =>
      by_cases hdom : extractDomainFromURL e.URL ≠ [] <;>
        simp [updateStep, he, ht, hdom, h1, h2, h3, h4]

theorem fold_updateStep_bloom_free : ∀ (es : List RegistryEntry) (a1 a2 : IndexBuild),
    a1.domains = a2.domains → a1.wildcards = a2.wildcards → a1.ips = a2.ips →
    a1.urlPatterns = a2.urlPatterns →
    ((es.foldl updateStep a1).domains = (es.foldl updateStep a2).domains ∧
     (es.foldl updateStep a1).wildcards = (es.foldl updateStep a2).wildcards ∧
     (es.foldl updateStep a1).ips = (es.foldl updateStep a2).ips ∧
     (es.foldl updateStep a1).urlPatterns = (es.foldl updateStep a2).urlPatterns) := by
  intro es
  induction es with
  | nil => intro a1 a2 h1 h2 h3 h4; exact ⟨h1, h2, h3, h4⟩
  | cons e rest ih =>
    intro a1 a2 h1 h2 h3 h4
    rw [List.foldl_cons, List.foldl_cons]
    obtain ⟨g1, g2, g3, g4⟩ := updateStep_components e a1 a2 h1 h2 h3 h4
    exact ih (updateStep a1 e) (updateStep a2 e) g1 g2 g3 g4

/-! ## Claim theorems -/

/-- The urlPatterns step of `IsBlocked`: the first stored rule for the
key that matches the empty URL, if any. -/
def urlPatternsStep (ms : MemoryStore) (k : Str) : Option BlockingRule :=
  match mapLookup ms.urlPatterns k with
  | some patterns => patterns.find? (fun rule => rule.Matches emptyURL)
  | none => none

/-- **C1** For every index state and key `k`, `IsBlocked(k)` follows the
precedence: if `k` is the empty string the result is not blocked; else if
the bloom filter does not contain `k` the result is not blocked (so
`bloom.Contains(k) = false` implies `IsBlocked(k).isBlocked = false`);
else the first hit among, in order, the exact-domain map, the exact-IP
map, and the wildcard radix tree decides the result, returning blocked
with the matching rule and its `BlockingType` as reason; if none of
these hit and the urlPatterns step yields nothing, the result is not
blocked. -/
theorem C1_isBlocked_precedence (ms : MemoryStore) (k : Str) :
    (k = [] → (ms.IsBlocked k).IsBlocked = false) ∧
    (ms.bloom.Contains k = false → (ms.IsBlocked k).IsBlocked = false) ∧
    (∀ r, k ≠ [] → ms.bloom.Contains k = true →
      mapLookup ms.domains k = some r →
      ms.IsBlocked k = NewBlockingResult true k (some r) ∧
        (ms.IsBlocked k).Reason = r.Type') ∧
    (∀ r, k ≠ [] → ms.bloom.Contains k = true →
      mapLookup ms.domains k = none → mapLookup ms.ips k = some r →
      ms.IsBlocked k = NewBlockingResult true k (some r) ∧
        (ms.IsBlocked k).Reason = r.Type') ∧
    (∀ r, k ≠ [] → ms.bloom.Contains k = true →
      mapLookup ms.domains k = none → mapLookup ms.ips k = none →
      ms.wildcards.MatchesWildcard k = some r →
      ms.IsBlocked k = NewBlockingResult true k (some r) ∧
        (ms.IsBlocked k).Reason = r.Type') ∧
    (mapLookup ms.domains k = none → mapLookup ms.ips k = none →
      ms.wildcards.MatchesWildcard k = none → urlPatternsStep ms k = none →
      (ms.IsBlocked k).IsBlocked = false) := by
  refine ⟨?_, ?_, ?_, ?_, ?_, ?_⟩
  · intro h
    simp [MemoryStore.IsBlocked, h, NewBlockingResult]
  · intro h
    by_cases hk : k = [] <;>
      simp [MemoryStore.IsBlocked, hk, h, NewBlockingResult]
  · intro r hk hb hd
    constructor <;> simp [MemoryStore.IsBlocked, hk, hb, hd, NewBlockingResult]
  · intro r hk hb hd hi
    constructor <;> simp [MemoryStore.IsBlocked, hk, hb, hd, hi, NewBlockingResult]
  · intro r hk hb hd hi hw
    constructor <;> simp [MemoryStore.IsBlocked, hk, hb, hd, hi, hw, NewBlockingResult]
  · intro hd hi hw hu
    by_cases hk : k = []
    · simp [MemoryStore.IsBlocked, hk, NewBlockingResult]
    · by_cases hb : ms.bloom.Contains k
      · unfold urlPatternsStep at hu
        cases hup : mapLookup ms.urlPatterns k with
        | none =>
          simp [MemoryStore.IsBlocked, hk, hb, hd, hi, hw, hup, NewBlockingResult]
        | some ps =>
          rw [hup] at hu
          have hu' : List.find? (fun rule => rule.Matches emptyURL) ps = none := hu
          simp [MemoryStore.IsBlocked, hk, hb, hd, hi, hw, hup, hu', NewBlockingResult]
      · have hb' : ms.bloom.Contains k = false := by simpa using hb
        simp [MemoryStore.IsBlocked, hk, hb', NewBlockingResult]

/-- A bloom filter with every bit of one 64-bit word set. -/
def bloomAll : BloomFilter := { bits := [18446744073709551615], size := 64, k := 1 }

/-- An exact-domain rule for `blocked.com`. -/
def ruleBlocked : BlockingRule :=
  { Type' := .Domain, Pattern := "blocked.com".toList, Original := "blocked.com".toList }

/-- A concrete index state with one exact-domain binding. -/
def storeC1 : MemoryStore :=
  { domains := [("blocked.com".toList, ruleBlocked)]
    wildcards := NewRadixTree
    ips := []
    urlPatterns := []
    bloom := bloomAll
    entryCount := 1
    version := [] }

/-- Witness for C1: the domain-map clause fires on a concrete store. -/
theorem C1_witness :
    storeC1.bloom.Contains "blocked.com".toList = true ∧
    storeC1.IsBlocked "blocked.com".toList =
      NewBlockingResult true "blocked.com".toList (some ruleBlocked) ∧
    (storeC1.IsBlocked "blocked.com".toList).Reason = BlockingType.Domain := by
  have hb : storeC1.bloom.Contains "blocked.com".toList = true := by decide
  have h := (C1_isBlocked_precedence storeC1 "blocked.com".toList).2.2.1 ruleBlocked
    (by decide) hb (by decide)
  refine ⟨hb, h.1, ?_⟩
  rw [h.2]
  rfl

/-- **C7** (code evidence) A CSV URL token that is an IP with a `:port`
suffix is classified as an IP by `isIPAddress`, but `categorizeEntry`
passes the unstripped `ip:port` text to `NewRegistryEntry`, which
rejects it, so the token is silently dropped; a CSV whose only token has
this shape is rejected as having no valid entries. -/
theorem C7_ipPortToken_dropped :
    parserIsIPAddress "192.168.1.1:8080".toList = true ∧
    parserIsIPAddress "1.2.3.4:8080".toList = true ∧
    (categorizeEntry NewRegistry "1.2.3.4:8080".toList).isOk = false ∧
    (parseCSVText "id;url;date\n1;1.2.3.4:8080;2023-01-01".toList).isOk = false := by
  refine ⟨by decide, by decide, by decide, by decide⟩

/-- **C8** `Update(nil)` returns the invalid-registry error and leaves
the state unchanged; `Update` of any non-nil registry returns success;
and an entry whose rule conversion fails contributes nothing to any of
the four lookup structures, without aborting the build. -/
theorem C8_update_failure_semantics :
    (∀ ms : MemoryStore, ms.Update none = (ms, some GoErr.errRegistryEntryInvalid)) ∧
    (∀ (ms : MemoryStore) (R : Registry), (ms.Update (some R)).2 = none) ∧
    (∀ (ms : MemoryStore) (R : Registry) (e : RegistryEntry),
      e.ToBlockingRule.isOk = false →
      ((ms.Update (some { R with Entries := e :: R.Entries })).1.domains =
          (ms.Update (some R)).1.domains ∧
        (ms.Update (some { R with Entries := e :: R.Entries })).1.wildcards =
          (ms.Update (some R)).1.wildcards ∧
        (ms.Update (some { R with Entries := e :: R.Entries })).1.ips =
          (ms.Update (some R)).1.ips ∧
        (ms.Update (some { R with Entries := e :: R.Entries })).1.urlPatterns =
          (ms.Update (some R)).1.urlPatterns)) := by
  refine ⟨fun ms => rfl, fun ms R => rfl, ?_⟩
  intro ms R e he
  simp only [MemoryStore.Update, List.foldl_cons]
  rw [updateStep_error _ e he]
  exact fold_updateStep_bloom_free R.Entries _ _ rfl rfl rfl rfl

/-- A registry entry whose rule conversion fails (single-label domain). -/
def entryBad : RegistryEntry := { Type' := .Domain, Domain := 'b' :: 'a' :: 'd' :: [] }

/-- Witness for C8: the skip clause applied to a concrete bad entry. -/
theorem C8_witness :
    entryBad.ToBlockingRule.isOk = false ∧
    (NewMemoryStore.Update (some { Entries := [entryBad] })).1.domains =
      (NewMemoryStore.Update (some NewRegistry)).1.domains := by
  have hbad : entryBad.ToBlockingRule.isOk = false := by decide
  exact ⟨hbad, (C8_update_failure_semantics.2.2 NewMemoryStore NewRegistry entryBad hbad).1⟩

/-- **C9** `parseCSVText`, `parseCSV`, `parseZIP` and `Parse` never
return a registry with zero entries: an input yielding no valid entries
is rejected with an error. -/
theorem C9_parse_nonempty :
    (∀ (text : Str) (R : Registry), parseCSVText text = .ok R → 1 ≤ R.Entries.length) ∧
    (∀ (data : Str) (R : Registry), parseCSV data = .ok R → 1 ≤ R.Entries.length) ∧
    (∀ (files : List (Str × Str)) (R : Registry),
      parseZIPFiles files = .ok R → 1 ≤ R.Entries.length) ∧
    (∀ (data : Str) (files : List (Str × Str)) (R : Registry),
      Parse data files = .ok R → 1 ≤ R.Entries.length) := by
  have h1 : ∀ (text : Str) (R : Registry), parseCSVText text = .ok R →
      1 ≤ R.Entries.length := by
    intro text R h
    unfold parseCSVText at h
    cases hc : csvReadRecords text with
    | error e => rw [hc] at h; exact absurd h (by simp)
    | ok records =>
      rw [hc] at h
      dsimp only at h
      split at h
      · exact absurd h (by simp)
      · rename_i hnz
        cases h
        unfold Registry.Size at hnz
        omega
  have h2 : ∀ (data : Str) (R : Registry), parseCSV data = .ok R →
      1 ≤ R.Entries.length := by
    intro data R h
    unfold parseCSV at h
    cases hp : parseCSVText data with
    | ok r => rw [hp] at h; dsimp only at h; cases h; exact h1 data _ hp
    | error e => rw [hp] at h; simp at h
  have h3 : ∀ (files : List (Str × Str)) (R : Registry),
      parseZIPFiles files = .ok R → 1 ≤ R.Entries.length := by
    intro files
    induction files with
    | nil => intro R h; exact absurd h (by simp [parseZIPFiles])
    | cons f rest ih =>
      intro R h
      obtain ⟨name, content⟩ := f
      unfold parseZIPFiles at h
      split at h
      · cases hp : parseCSV content with
        | ok r => rw [hp] at h; dsimp only at h; cases h; exact h2 content _ hp
        | error e => rw [hp] at h; dsimp only at h; exact ih R h
      · exact ih R h
  refine ⟨h1, h2, h3, ?_⟩
  intro data files R h
  unfold Parse at h
  split at h
  · exact absurd h (by simp)
  · cases hf : detectFormat data with
    | error e => rw [hf] at h; exact absurd h (by simp)
    | ok f =>
      rw [hf] at h
      dsimp only at h
      split at h
      · exact h3 files R h
      · split at h
        · exact h2 data R h
        · exact absurd h (by simp)

/-- A one-row CSV sample with a single valid domain token. -/
def sampleCSV : Str := "id;url;date\n1;example.com;2023-01-01".toList

/-- Witness for C9: the sample CSV parses into a non-empty registry. -/
theorem C9_witness :
    1 ≤ ((parseCSVText sampleCSV).toOption.getD NewRegistry).Entries.length := by
  have h : parseCSVText sampleCSV =
      .ok ((parseCSVText sampleCSV).toOption.getD NewRegistry) := by rfl
  exact C9_parse_nonempty.1 sampleCSV _ h

/-- A registry whose only entry fails rule conversion. -/
def regBadDomain : Registry := { Entries := [entryBad] }

/-- **C10** After every `Update(R)`, `Stats().TotalEntries` equals the
total number of entries of `R` — including entries skipped during the
build — so `TotalEntries` can strictly exceed the sum of the four
per-structure counts, as the concrete skipped-entry registry shows. -/
theorem C10_stats_totalEntries :
    (∀ (ms : MemoryStore) (R : Registry),
      ((ms.Update (some R)).1).Stats.TotalEntries = R.Entries.length) ∧
    ((NewMemoryStore.Update (some regBadDomain)).1.Stats.TotalEntries = 1 ∧
      (NewMemoryStore.Update (some regBadDomain)).1.Stats.DomainEntries +
        (NewMemoryStore.Update (some regBadDomain)).1.Stats.WildcardEntries +
        (NewMemoryStore.Update (some regBadDomain)).1.Stats.IPEntries +
        (NewMemoryStore.Update (some regBadDomain)).1.Stats.URLPatterns = 0) := by
  exact ⟨fun ms R => rfl, rfl, rfl⟩

/-! ### C2: the urlPatterns branch of `IsBlocked` -/

/-- The zero-value `&domain.URL{}` is invalid, so no rule matches it. -/
theorem Matches_emptyURL (r : BlockingRule) : r.Matches emptyURL = false := by
  simp [BlockingRule.Matches, emptyURL, URL.IsValid]

/-- `NewBloomFilter n 0.01` has a positive bit count for `n ≠ 0`. -/
theorem newBloom_size_pos (n : Nat) (hn : n ≠ 0) :
    0 < (NewBloomFilter n (1 / 100)).size := by
  unfold NewBloomFilter
  simp only [hn, if_false]
  have hcond : ¬((1 : ℝ) / 100 ≤ 0 ∨ (1 : ℝ) ≤ 1 / 100) := by norm_num
  rw [if_neg hcond]
  have hl2pos : 0 < Real.log 2 := Real.log_pos (by norm_num)
  have hl2lt : Real.log 2 < 1 := by
    have := Real.log_two_lt_d9
    linarith
  have hlog100 : 1 < Real.log (100 : ℝ) := by
    rw [show (1 : ℝ) = Real.log (Real.exp 1) by rw [Real.log_exp]]
    apply Real.log_lt_log (Real.exp_pos 1)
    have := Real.exp_one_lt_d9
    linarith
  have hx : -(n : ℝ) * Real.log (1 / 100) / (Real.log 2 * Real.log 2) =
      (n : ℝ) * Real.log 100 / (Real.log 2 * Real.log 2) := by
    rw [one_div, Real.log_inv]
    ring
  rw [hx]
  have hn1 : (1 : ℝ) ≤ (n : ℝ) := by
    have : 1 ≤ n := Nat.one_le_iff_ne_zero.2 hn
    exact_mod_cast this
  have hge : (1 : ℝ) ≤ (n : ℝ) * Real.log 100 / (Real.log 2 * Real.log 2) := by
    rw [le_div_iff (by positivity)]
    nlinarith
  have hfloor : 1 ≤ ⌊(n : ℝ) * Real.log 100 / (Real.log 2 * Real.log 2)⌋ := by
    exact_mod_cast Int.le_floor.2 (by exact_mod_cast hge)
  omega

/-- The constructor's word array always covers the bit range. -/
theorem newBloom_bits_cover (n : Nat) (p : ℝ) :
    (NewBloomFilter n p).size ≤ 64 * (NewBloomFilter n p).bits.length := by
  unfold NewBloomFilter
  simp only [List.length_replicate]
  generalize (⌊-(if n = 0 then 1000000 else n : Nat) *
    Real.log (if p ≤ 0 ∨ 1 ≤ p then 1 / 100 else p) /
    (Real.log 2 * Real.log 2)⌋).toNat = m
  omega

/-- **C2** (amended) For every index state and key `k` present in the
urlPatterns map that passes the bloom filter and is missed by the
domain, IP and wildcard steps, `IsBlocked(k)` returns NOT blocked: the
stored URL-path rules are evaluated against the zero-value URL, which
never matches, so the urlPatterns step can never produce a hit. -/
theorem C2_urlPatterns_never_hit (ms : MemoryStore) (k : Str) (hk : k ≠ [])
    (hb : ms.bloom.Contains k = true) (hd : mapLookup ms.domains k = none)
    (hi : mapLookup ms.ips k = none) (hw : ms.wildcards.MatchesWildcard k = none)
    (ps : List BlockingRule) (hu : mapLookup ms.urlPatterns k = some ps) :
    (ms.IsBlocked k).IsBlocked = false := by
  have hf : List.find? (fun rule => rule.Matches emptyURL) ps = none := by
    rw [List.find?_eq_none]
    intro r _
    simp [Matches_emptyURL r]
  simp [MemoryStore.IsBlocked, hk, hb, hd, hi, hw, hu, hf, NewBlockingResult]

/-- A URL-path registry entry with host `blocked.com`. -/
def entryURLPath : RegistryEntry := { Type' := .URLPath, URL := "blocked.com/path".toList }

/-- A registry holding only the URL-path entry. -/
def regURLPath : Registry := { Entries := [entryURLPath] }

/-- The index state built by `Update` from `regURLPath`. -/
noncomputable def storeC2 : MemoryStore := (NewMemoryStore.Update (some regURLPath)).1

/-- The blocking rule `Update` derives from `entryURLPath`. -/
def ruleURLPath : BlockingRule :=
  { Type' := .URLPath, Pattern := "blocked.com/path".toList,
    Original := "blocked.com/path".toList }

/-- Counterexample to C2 as stated: after `Update` of a registry with a
URL-path entry for host `blocked.com`, the key `blocked.com` passes the
bloom filter, sits in the urlPatterns map, is missed by the earlier
steps — and `IsBlocked` still reports NOT blocked. -/
theorem C2_counterexample :
    NewMemoryStore.Update (some regURLPath) = (storeC2, none) ∧
    storeC2.bloom.Contains "blocked.com".toList = true ∧
    mapLookup storeC2.urlPatterns "blocked.com".toList = some [ruleURLPath] ∧
    mapLookup storeC2.domains "blocked.com".toList = none ∧
    mapLookup storeC2.ips "blocked.com".toList = none ∧
    storeC2.wildcards.MatchesWildcard "blocked.com".toList = none ∧
    (storeC2.IsBlocked "blocked.com".toList).IsBlocked = false := by
  have hbe : storeC2.bloom = (NewBloomFilter 1 (1 / 100)).Add "blocked.com".toList := rfl
  have hb : storeC2.bloom.Contains "blocked.com".toList = true := by
    rw [hbe]
    exact Add_Contains_self _ _ (newBloom_size_pos 1 (by decide)) (newBloom_bits_cover 1 _)
  have hu : mapLookup storeC2.urlPatterns "blocked.com".toList = some [ruleURLPath] := rfl
  have hf : List.find? (fun rule => rule.Matches emptyURL) [ruleURLPath] = none := rfl
  refine ⟨rfl, hb, hu, rfl, rfl, rfl, ?_⟩
  have hd : mapLookup storeC2.domains "blocked.com".toList = none := rfl
  have hi : mapLookup storeC2.ips "blocked.com".toList = none := rfl
  have hw : storeC2.wildcards.MatchesWildcard "blocked.com".toList = none := rfl
  have hk : ¬(("blocked.com".toList : Str) = []) := by decide
  unfold MemoryStore.IsBlocked
  rw [if_neg hk, hb]
  rw [if_neg (by simp : ¬(true = false))]
  rw [hd, hi, hw, hu]
  dsimp only
  rw [hf]
  rfl

/-- Witness for the amended C2 on the concrete `Update`-built store. -/
theorem C2_witness : (storeC2.IsBlocked "blocked.com".toList).IsBlocked = false := by
  have hbe : storeC2.bloom = (NewBloomFilter 1 (1 / 100)).Add "blocked.com".toList := rfl
  have hb : storeC2.bloom.Contains "blocked.com".toList = true := by
    rw [hbe]
    exact Add_Contains_self _ _ (newBloom_size_pos 1 (by decide)) (newBloom_bits_cover 1 _)
  exact C2_urlPatterns_never_hit storeC2 "blocked.com".toList (by decide) hb rfl rfl rfl
    [ruleURLPath] rfl

/-! ### C6: the bloom filter constructor's numerology -/

/-- Counterexample to C6 as stated: at `n = 10`, `p = 1/2` the code's
bit count is `⌊10 / ln 2⌋ = 14`, while the claimed ceiling formula gives
`⌈10 / ln 2⌉ = 15`. -/
theorem C6_counterexample :
    (NewBloomFilter 10 (1 / 2)).size = 14 ∧
    ⌈-(10 : ℝ) * Real.log (1 / 2) / (Real.log 2 * Real.log 2)⌉ = 15 := by
  have hl2pos : 0 < Real.log 2 := Real.log_pos (by norm_num)
  have hlo := Real.log_two_gt_d9
  have hhi := Real.log_two_lt_d9
  have hx : -(10 : ℝ) * Real.log (1 / 2) / (Real.log 2 * Real.log 2) =
      10 / Real.log 2 := by
    rw [one_div, Real.log_inv]
    field_simp
    ring
  have h14 : (14 : ℝ) < 10 / Real.log 2 := by
    rw [lt_div_iff hl2pos]
    nlinarith
  have h15 : 10 / Real.log 2 < 15 := by
    rw [div_lt_iff hl2pos]
    nlinarith
  constructor
  · have hcond : ¬((1 : ℝ) / 2 ≤ 0 ∨ (1 : ℝ) ≤ 1 / 2) := by norm_num
    have hgoal : (NewBloomFilter 10 (1 / 2)).size =
        (⌊-((10 : Nat) : ℝ) * Real.log (1 / 2) / (Real.log 2 * Real.log 2)⌋).toNat := by
      unfold NewBloomFilter
      rw [if_neg (by norm_num : ¬((10 : Nat) = 0)), if_neg hcond]
    rw [hgoal]
    have hfl : ⌊-((10 : Nat) : ℝ) * Real.log (1 / 2) / (Real.log 2 * Real.log 2)⌋ = 14 := by
      have hcast : -((10 : Nat) : ℝ) * Real.log (1 / 2) / (Real.log 2 * Real.log 2) =
          10 / Real.log 2 := by
        push_cast
        exact hx
      rw [hcast, Int.floor_eq_iff]
      constructor
      · push_cast
        linarith
      · push_cast
        linarith
    rw [hfl]
    rfl
  · rw [hx, Int.ceil_eq_iff]
    constructor
    · push_cast
      linarith
    · push_cast
      linarith

/-- **C6** (amended) For expected cardinality `n ≠ 0` and rate
`p ∈ (0,1)`, the constructor yields bit count
`m = ⌊-n·ln(p)/ln(2)²⌋` (truncation, not the ceiling), hash count
`k = max(1, min(10, ⌊m/n·ln(2)⌋))` (truncation, not rounding), and a
word array of length `⌈m/64⌉ = (m+63)/64`; the edge cases replace
`n = 0` by `n = 1,000,000` and `p` outside `(0,1)` by `p = 0.01`. -/
theorem C6_bloom_constructor (n : Nat) (p : ℝ) (hn : n ≠ 0) (hp0 : 0 < p) (hp1 : p < 1) :
    ((NewBloomFilter n p).size =
      (⌊-(n : ℝ) * Real.log p / (Real.log 2 * Real.log 2)⌋).toNat ∧
     (NewBloomFilter n p).k =
      max 1 (min 10 ((⌊((NewBloomFilter n p).size : ℝ) / (n : ℝ) * Real.log 2⌋).toNat)) ∧
     (NewBloomFilter n p).bits.length = ((NewBloomFilter n p).size + 63) / 64) ∧
    (∀ q : ℝ, NewBloomFilter 0 q = NewBloomFilter 1000000 q) ∧
    (∀ (n' : Nat) (q : ℝ), q ≤ 0 ∨ 1 ≤ q → NewBloomFilter n' q = NewBloomFilter n' (1 / 100)) := by
  have hcond : ¬(p ≤ 0 ∨ 1 ≤ p) := by
    push_neg
    exact ⟨hp0, hp1⟩
  have hclamp : ∀ k0 : Nat,
      (if (if k0 = 0 then 1 else k0) > 10 then 10 else if k0 = 0 then 1 else k0) =
        max 1 (min 10 k0) := by
    intro k0
    by_cases h0 : k0 = 0
    · simp [h0]
    · by_cases h10 : k0 > 10 <;> simp [h0, h10] <;> omega
  refine ⟨⟨?_, ?_, ?_⟩, ?_, ?_⟩
  · unfold NewBloomFilter
    rw [if_neg hn, if_neg hcond]
  · unfold NewBloomFilter
    rw [if_neg hn, if_neg hcond]
    exact hclamp _
  · unfold NewBloomFilter
    rw [if_neg hn, if_neg hcond]
    simp only [List.length_replicate]
  · intro q
    unfold NewBloomFilter
    norm_num
  · intro n' q hq
    unfold NewBloomFilter
    have hq' : ¬((1 : ℝ) / 100 ≤ 0 ∨ (1 : ℝ) ≤ 1 / 100) := by norm_num
    rw [if_pos hq, if_neg hq']

/-! ### Helper lemmas: the radix tree -/

theorem pfxOf_append_cancel : ∀ (l p s : Str), pfxOf (l ++ p) (l ++ s) = pfxOf p s := by
  intro l
  induction l with
  | nil => intro p s; rfl
  | cons a l ih => intro p s; simp [pfxOf, ih]

theorem pfxOf_of_append {a b s : Str} (h : pfxOf (a ++ b) s = true) : pfxOf a s = true := by
  obtain ⟨t, ht⟩ := (pfxOf_iff _ _).1 h
  exact (pfxOf_iff _ _).2 ⟨b ++ t, by rw [← ht, List.append_assoc]⟩

theorem pfxOf_false_of_length {p s : Str} (h : s.length < p.length) : pfxOf p s = false := by
  rcases Bool.eq_false_or_eq_true (pfxOf p s) with hv | hv
  · exact absurd (pfxOf_length_le hv) (by omega)
  · exact hv

theorem lcp_cons_same (c : Char) (s t : Str) : lcp (c :: s) (c :: t) = c :: lcp s t := by
  simp [lcp]

theorem lcp_pfx_left : ∀ (s t : Str), ∃ u, lcp s t ++ u = s := by
  intro s
  induction s with
  | nil => intro t; exact ⟨[], by cases t <;> rfl⟩
  | cons a s ih =>
    intro t
    cases t with
    | nil => exact ⟨a :: s, rfl⟩
    | cons b t =>
      by_cases hab : a = b
      · subst hab
        obtain ⟨u, hu⟩ := ih t
        exact ⟨u, by rw [lcp_cons_same, List.cons_append, hu]⟩
      · exact ⟨a :: s, by simp [lcp, hab]⟩

theorem lcp_pfx_right : ∀ (s t : Str), ∃ u, lcp s t ++ u = t := by
  intro s
  induction s with
  | nil => intro t; exact ⟨t, by cases t <;> rfl⟩
  | cons a s ih =>
    intro t
    cases t with
    | nil => exact ⟨[], rfl⟩
    | cons b t =>
      by_cases hab : a = b
      · subst hab
        obtain ⟨u, hu⟩ := ih t
        exact ⟨u, by rw [lcp_cons_same, List.cons_append, hu]⟩
      · exact ⟨b :: t, by simp [lcp, hab]⟩

theorem lcp_heads_ne : ∀ (s t : Str) (a b : Char) (s' t' : Str),
    lcp s t ++ a :: s' = s → lcp s t ++ b :: t' = t → a ≠ b := by
  intro s
  induction s with
  | nil => intro t a b s' t' h1 _; cases t <;> simp [lcp] at h1
  | cons c s ih =>
    intro t a b s' t' h1 h2
    cases t with
    | nil => simp [lcp] at h2
    | cons d t =>
      by_cases hcd : c = d
      · subst hcd
        rw [lcp_cons_same, List.cons_append, List.cons.injEq] at h1 h2
        exact ih t a b s' t' h1.2 h2.2
      · simp only [lcp, if_neg hcd, List.nil_append, List.cons.injEq] at h1 h2
        intro hab
        exact hcd (h1.1.symm.trans (hab ▸ h2.1))

/-- The well-formedness invariant that `Insert` maintains: children are
keyed by the first byte of their nonempty edge labels, sibling keys are
distinct, and end nodes carry a value. -/
inductive WF {V : Type} : RNode V → Prop where
  | intro (nk : Str) (ch : List (Char × RNode V)) (ne : Bool) (nv : Option V) :
      (∀ p ∈ ch, (p.2 : RNode V).key.head? = some p.1) →
      (∀ p ∈ ch, WF p.2) →
      (ch.map Prod.fst).Nodup →
      (ne = true → nv.isSome = true) →
      WF (.mk nk ch ne nv)

theorem WF.head_spec {V : Type} {n : RNode V} (h : WF n) :
    ∀ p ∈ n.children, (p.2 : RNode V).key.head? = some p.1 := by
  cases h with
  | intro nk ch ne nv hh hw hnd hev => exact hh

theorem WF.child_wf {V : Type} {n : RNode V} (h : WF n) :
    ∀ p ∈ n.children, WF p.2 := by
  cases h with
  | intro nk ch ne nv hh hw hnd hev => exact hw

theorem WF.nodup_keys {V : Type} {n : RNode V} (h : WF n) :
    (n.children.map Prod.fst).Nodup := by
  cases h with
  | intro nk ch ne nv hh hw hnd hev => exact hnd

theorem WF.end_value {V : Type} {n : RNode V} (h : WF n) :
    n.isEnd = true → n.value.isSome = true := by
  cases h with
  | intro nk ch ne nv hh hw hnd hev => exact hev

theorem WF_key_irrel {V : Type} {k1 k2 : Str} {ch : List (Char × RNode V)}
    {ne : Bool} {nv : Option V} (h : WF (RNode.mk k1 ch ne nv)) :
    WF (RNode.mk k2 ch ne nv) := by
  cases h with
  | intro nk ch ne nv hh hw hnd hev => exact .intro _ ch ne nv hh hw hnd hev

theorem findChild_mem {V : Type} (c : Char) :
    ∀ (l : List (Char × RNode V)) (m : RNode V), findChild c l = some m → (c, m) ∈ l := by
  intro l
  induction l with
  | nil => intro m h; simp [findChild] at h
  | cons p rest ih =>
    intro m h
    obtain ⟨a, n⟩ := p
    by_cases hac : a = c
    · subst hac
      simp [findChild] at h
      subst h
      exact List.mem_cons_self _ _
    · simp [findChild, hac] at h
      exact List.mem_cons_of_mem _ (ih m h)

theorem findChild_setChild_self {V : Type} (c : Char) (n : RNode V) :
    ∀ (l : List (Char × RNode V)), findChild c (setChild c n l) = some n := by
  intro l
  induction l with
  | nil => simp [setChild, findChild]
  | cons p rest ih =>
    obtain ⟨a, m⟩ := p
    by_cases hac : a = c
    · simp [setChild, hac, findChild]
    · simp [setChild, hac, findChild, ih]

theorem findChild_setChild_ne {V : Type} (c c' : Char) (n : RNode V) (h : c' ≠ c) :
    ∀ (l : List (Char × RNode V)), findChild c' (setChild c n l) = findChild c' l := by
  intro l
  induction l with
  | nil =>
    simp only [setChild, findChild]
    rw [if_neg (fun he => h he.symm)]
  | cons p rest ih =>
    obtain ⟨a, m⟩ := p
    by_cases hac : a = c
    · subst hac
      simp only [setChild, if_pos rfl, findChild]
      rw [if_neg (fun he => h he.symm), if_neg (fun he => h he.symm)]
    · simp only [setChild, if_neg hac, findChild]
      by_cases hac' : a = c'
      · rw [if_pos hac', if_pos hac']
      · rw [if_neg hac', if_neg hac']
        exact ih

theorem setChild_mem {V : Type} (c : Char) (n : RNode V) :
    ∀ (l : List (Char × RNode V)) (p : Char × RNode V),
      p ∈ setChild c n l → p = (c, n) ∨ p ∈ l := by
  intro l
  induction l with
  | nil => intro p hp; simp [setChild] at hp; exact Or.inl hp
  | cons q rest ih =>
    intro p hp
    obtain ⟨a, m⟩ := q
    by_cases hac : a = c
    · simp [setChild, hac] at hp
      rcases hp with rfl | hp
      · exact Or.inl rfl
      · exact Or.inr (List.mem_cons_of_mem _ hp)
    · simp only [setChild, if_neg hac, List.mem_cons] at hp
      rcases hp with rfl | hp
      · exact Or.inr (List.mem_cons_self _ _)
      · rcases ih p hp with h | h
        · exact Or.inl h
        · exact Or.inr (List.mem_cons_of_mem _ h)

theorem setChild_keys_mem {V : Type} (c x : Char) (n : RNode V) :
    ∀ (l : List (Char × RNode V)),
      x ∈ (setChild c n l).map Prod.fst → x ∈ l.map Prod.fst ∨ x = c := by
  intro l
  induction l with
  | nil => intro h; simp [setChild] at h; exact Or.inr h
  | cons q rest ih =>
    intro h
    obtain ⟨a, m⟩ := q
    by_cases hac : a = c
    · simp [setChild, hac] at h
      rcases h with rfl | h
      · exact Or.inr rfl
      · exact Or.inl (by simp [h])
    · simp only [setChild, if_neg hac, List.map_cons, List.mem_cons] at h
      rcases h with rfl | h
      · exact Or.inl (by simp)
      · rcases ih h with h' | h'
        · exact Or.inl (by simp at h' ⊢; exact Or.inr h')
        · exact Or.inr h'

theorem setChild_nodup {V : Type} (c : Char) (n : RNode V) :
    ∀ (l : List (Char × RNode V)), (l.map Prod.fst).Nodup →
      ((setChild c n l).map Prod.fst).Nodup := by
  intro l
  induction l with
  | nil => intro _; simp [setChild]
  | cons q rest ih =>
    intro hnd
    obtain ⟨a, m⟩ := q
    simp only [List.map_cons, List.nodup_cons] at hnd
    by_cases hac : a = c
    · subst hac
      simpa [setChild] using hnd
    · simp only [setChild, if_neg hac, List.map_cons, List.nodup_cons]
      refine ⟨?_, ih hnd.2⟩
      intro hmem
      rcases setChild_keys_mem c a n rest hmem with h | h
      · exact hnd.1 h
      · exact hac h

theorem searchF_fuel {V : Type} : ∀ (f1 f2 : Nat) (n : RNode V) (k : Str),
    WF n → k.length < f1 → k.length < f2 → searchF f1 n k = searchF f2 n k := by
  intro f1
  induction f1 with
  | zero => intro f2 n k _ h1; omega
  | succ f1 ih =>
    intro f2 n k hwf h1 h2
    cases f2 with
    | zero => omega
    | succ f2 =>
      cases k with
      | nil => rfl
      | cons c k' =>
        simp only [searchF]
        cases hfc : findChild c n.children with
        | none => rfl
        | some child =>
          dsimp only
          have hhead := hwf.head_spec _ (findChild_mem c _ _ hfc)
          have hwfc := hwf.child_wf _ (findChild_mem c _ _ hfc)
          have hkey : child.key ≠ [] := by
            intro he
            rw [he] at hhead
            cases hhead
          by_cases hp : pfxOf child.key (c :: k') = true
          · rw [if_pos hp, if_pos hp]
            have h1' : 1 ≤ child.key.length := List.length_pos.mpr hkey
            have hlen : ((c :: k').drop child.key.length).length < f1 := by
              simp only [List.length_drop, List.length_cons] at *
              omega
            have hlen2 : ((c :: k').drop child.key.length).length < f2 := by
              simp only [List.length_drop, List.length_cons] at *
              omega
            exact ih f2 child _ hwfc hlen hlen2
          · rw [if_neg hp, if_neg hp]

/-- `endAt n k`: the search for `k` from `n` lands on an end node. -/
def endAt {V : Type} (n : RNode V) (k : Str) : Bool :=
  match searchN n k with
  | some m => m.isEnd
  | none => false

theorem endAt_nil {V : Type} (n : RNode V) : endAt n [] = n.isEnd := rfl

theorem endAt_cons {V : Type} (n : RNode V) (hwf : WF n) (c : Char) (k' : Str) :
    endAt n (c :: k') =
      (match findChild c n.children with
       | none => false
       | some child =>
         if pfxOf child.key (c :: k') = true then endAt child ((c :: k').drop child.key.length)
         else false) := by
  unfold endAt searchN
  simp only [searchF]
  cases hfc : findChild c n.children with
  | none => rfl
  | some child =>
    dsimp only
    have hhead := hwf.head_spec _ (findChild_mem c _ _ hfc)
    have hwfc := hwf.child_wf _ (findChild_mem c _ _ hfc)
    have hkey : child.key ≠ [] := by
      intro he
      rw [he] at hhead
      cases hhead
    by_cases hp : pfxOf child.key (c :: k') = true
    · rw [if_pos hp, if_pos hp]
      have h1' : 1 ≤ child.key.length := List.length_pos.mpr hkey
      have hstep : searchF ((c :: k').length) child ((c :: k').drop child.key.length) =
          searchF (((c :: k').drop child.key.length).length + 1) child
            ((c :: k').drop child.key.length) := by
        apply searchF_fuel _ _ _ _ hwfc
        · simp only [List.length_drop, List.length_cons]
          omega
        · omega
      rw [hstep]
    · rw [if_neg hp, if_neg hp]

theorem searchF_end_value {V : Type} : ∀ (fuel : Nat) (n : RNode V) (k : Str) (m : RNode V),
    WF n → searchF fuel n k = some m → m.isEnd = true → m.value.isSome = true := by
  intro fuel
  induction fuel with
  | zero => intro n k m _ h; simp [searchF] at h
  | succ fuel ih =>
    intro n k m hwf h
    cases k with
    | nil =>
      simp only [searchF] at h
      cases h
      exact hwf.end_value
    | cons c k' =>
      simp only [searchF] at h
      cases hfc : findChild c n.children with
      | none => rw [hfc] at h; cases h
      | some child =>
        rw [hfc] at h
        dsimp only at h
        have hwfc := hwf.child_wf _ (findChild_mem c _ _ hfc)
        by_cases hp : pfxOf child.key (c :: k') = true
        · rw [if_pos hp] at h
          exact ih child _ m hwfc h
        · rw [if_neg hp] at h
          cases h

theorem drop_append_len {A : Type} (l s : List A) (m : Nat) :
    (l ++ s).drop (l.length + m) = s.drop m := by
  induction l with
  | nil => simp
  | cons a t ih => simp [Nat.succ_add, ih]

theorem endAt_cons_none {V : Type} (n : RNode V) (hwf : WF n) (c : Char) (k' : Str)
    (hfc : findChild c n.children = none) : endAt n (c :: k') = false := by
  rw [endAt_cons n hwf c k', hfc]

theorem endAt_cons_some {V : Type} (n : RNode V) (hwf : WF n) (c : Char) (k' : Str)
    (child : RNode V) (hfc : findChild c n.children = some child) :
    endAt n (c :: k') =
      (if pfxOf child.key (c :: k') = true then endAt child ((c :: k').drop child.key.length)
       else false) := by
  rw [endAt_cons n hwf c k', hfc]

theorem endAt_no_children {V : Type} (kl : Str) (e : Bool) (vv : Option V) (u : Str) :
    endAt (RNode.mk kl ([] : List (Char × RNode V)) e vv) u = (u.isEmpty && e) := by
  cases u with
  | nil => simp [endAt_nil]
  | cons e' w =>
    unfold endAt searchN
    simp only [searchF, findChild]
    rfl

theorem endAt_key_irrel {V : Type} (k1 k2 : Str) (ch : List (Char × RNode V))
    (e : Bool) (vv : Option V) (hwf : WF (RNode.mk k1 ch e vv)) (u : Str) :
    endAt (RNode.mk k1 ch e vv) u = endAt (RNode.mk k2 ch e vv) u := by
  cases u with
  | nil => rfl
  | cons c' w =>
    rw [endAt_cons _ hwf, endAt_cons _ (WF_key_irrel hwf)]
    rfl

theorem endAt_setChild_outside {V : Type} (nk : Str) (ch : List (Char × RNode V))
    (ne : Bool) (nv : Option V) (c : Char) (m : RNode V)
    (hwf : WF (RNode.mk nk ch ne nv)) (hwfnew : WF (RNode.mk nk (setChild c m ch) ne nv))
    (k' : Str) (hk' : k'.head? ≠ some c) :
    endAt (RNode.mk nk (setChild c m ch) ne nv) k' = endAt (RNode.mk nk ch ne nv) k' := by
  cases k' with
  | nil => rfl
  | cons c' w =>
    have hc' : c' ≠ c := by
      intro he
      exact hk' (by simp [he])
    rw [endAt_cons _ hwfnew, endAt_cons _ hwf]
    simp only [RNode.children_mk]
    rw [findChild_setChild_ne c c' _ hc']

theorem endAt_congr_parts {V : Type} (m : RNode V) (k2 : Str) (hwf : WF m) (u : Str) :
    endAt (RNode.mk k2 m.children m.isEnd m.value) u = endAt m u := by
  cases m with
  | mk k1 ch e vv =>
    simp only [RNode.children_mk, RNode.isEnd_mk, RNode.value_mk]
    exact (endAt_key_irrel k1 k2 ch e vv hwf u).symm

/-- The heart of C5: one `insert` call preserves the invariant, keeps
the node's own edge label, reports a size increment exactly when the key
was absent, and makes exactly the inserted key (newly) end-reachable. -/
theorem insertF_spec {V : Type} : ∀ (fuel : Nat) (n : RNode V) (k : Str) (v : V),
    WF n → k.length < fuel →
    WF (insertF fuel n k v).1 ∧
    (insertF fuel n k v).1.key = n.key ∧
    (insertF fuel n k v).2 = !endAt n k ∧
    (∀ k', endAt (insertF fuel n k v).1 k' = (decide (k' = k) || endAt n k')) := by
  intro fuel
  induction fuel with
  | zero => intro n k v _ h; omega
  | succ fuel ih =>
    intro n k v hwf hlen
    obtain ⟨nk, ch, ne, nv⟩ := n
    cases k with
    | nil =>
      have hwf' : WF (RNode.mk nk ch true (some v)) := by
        cases hwf with
        | intro _ _ _ _ hh hw hnd hev => exact .intro _ _ _ _ hh hw hnd (fun _ => rfl)
      refine ⟨hwf', rfl, rfl, ?_⟩
      intro k'
      cases k' with
      | nil => simp [insertF, endAt_nil]
      | cons c' w =>
        show endAt (RNode.mk nk ch true (some v)) (c' :: w) = _
        rw [endAt_cons _ hwf', endAt_cons _ hwf]
        simp
    | cons c kt =>
      cases hfc : findChild c ch with
      | none =>
        have heq : insertF (fuel + 1) (RNode.mk nk ch ne nv) (c :: kt) v =
            (.mk nk (setChild c (.mk (c :: kt) [] true (some v)) ch) ne nv, true) := by
          simp only [insertF, RNode.children_mk, hfc, RNode.key_mk, RNode.isEnd_mk,
            RNode.value_mk]
        rw [heq]
        have hwfleaf : WF (RNode.mk (c :: kt) ([] : List (Char × RNode V)) true (some v)) :=
          .intro _ _ _ _ (by intro p hp; simp at hp) (by intro p hp; simp at hp) (by simp)
            (fun _ => rfl)
        have hwfnew : WF (RNode.mk nk
            (setChild c (RNode.mk (c :: kt) [] true (some v)) ch) ne nv) := by
          cases hwf with
          | intro _ _ _ _ hh hw hnd hev =>
            refine .intro _ _ _ _ ?_ ?_ (setChild_nodup _ _ _ hnd) hev
            · intro p hp
              rcases setChild_mem _ _ _ p hp with rfl | hp'
              · rfl
              · exact hh p hp'
            · intro p hp
              rcases setChild_mem _ _ _ p hp with rfl | hp'
              · exact hwfleaf
              · exact hw p hp'
        refine ⟨hwfnew, rfl, ?_, ?_⟩
        · rw [endAt_cons_none _ hwf c kt hfc]
          rfl
        · intro k'
          by_cases hk'h : k'.head? = some c
          · cases k' with
            | nil => simp at hk'h
            | cons c' w =>
              have hc' : c' = c := by simpa using hk'h
              subst hc'
              rw [endAt_cons_some _ hwfnew c' w _ (findChild_setChild_self c' _ ch)]
              rw [endAt_cons_none _ hwf c' w hfc]
              simp only [RNode.key_mk]
              by_cases hp : pfxOf (c' :: kt) (c' :: w) = true
              · rw [if_pos hp]
                obtain ⟨t, ht⟩ := (pfxOf_iff _ _).1 hp
                have hdt : (c' :: w).drop (c' :: kt).length = t := by
                  rw [← ht]
                  exact List.drop_left _ _
                rw [hdt, endAt_no_children]
                cases t with
                | nil =>
                  have : c' :: w = c' :: kt := by rw [← ht]; simp
                  simp [this]
                | cons x xs =>
                  have : ¬(c' :: w = c' :: kt) := by
                    rw [← ht]
                    simp
                  simp [this]
              · rw [if_neg hp]
                have hne : ¬(c' :: w = c' :: kt) := by
                  intro he
                  rw [he] at hp
                  exact hp (pfxOf_refl _)
                simp [hne]
          · rw [endAt_setChild_outside _ _ _ _ _ _ hwf hwfnew k' hk'h]
            have hne : ¬(k' = c :: kt) := by
              intro he
              rw [he] at hk'h
              simp at hk'h
            simp [hne]
      | some child =>
        have hhead : child.key.head? = some c := hwf.head_spec _ (findChild_mem c _ _ hfc)
        have hwfc : WF child := hwf.child_wf _ (findChild_mem c _ _ hfc)
        have hckne : child.key ≠ [] := by
          intro he
          rw [he] at hhead
          cases hhead
        by_cases hcp1 : lcp child.key (c :: kt) = child.key
        · -- the common prefix is the whole child label: recurse into the child
          obtain ⟨u, hu⟩ := lcp_pfx_right child.key (c :: kt)
          rw [hcp1] at hu
          have hpfx : pfxOf child.key (c :: kt) = true := (pfxOf_iff _ _).2 ⟨u, hu⟩
          have hdropk : (c :: kt).drop child.key.length = u := by
            rw [← hu]
            exact List.drop_left _ _
          have hulen : u.length < fuel := by
            have h1 := List.length_pos.mpr hckne
            have h2 : (c :: kt).length = child.key.length + u.length := by
              rw [← hu]
              simp
            simp only [List.length_cons] at hlen h2
            omega
          have heq : insertF (fuel + 1) (RNode.mk nk ch ne nv) (c :: kt) v =
              (.mk nk (setChild c (insertF fuel child u v).1 ch) ne nv,
                (insertF fuel child u v).2) := by
            simp only [insertF, RNode.children_mk, hfc, RNode.key_mk, RNode.isEnd_mk,
              RNode.value_mk]
            rw [if_pos hcp1, hcp1, hdropk]
          rw [heq]
          obtain ⟨ihwf, ihkey, ihinc, ihend⟩ := ih child u v hwfc hulen
          have hwfnew : WF (RNode.mk nk (setChild c (insertF fuel child u v).1 ch) ne nv) := by
            cases hwf with
            | intro _ _ _ _ hh hw hnd hev =>
              refine .intro _ _ _ _ ?_ ?_ (setChild_nodup _ _ _ hnd) hev
              · intro p hp
                rcases setChild_mem _ _ _ p hp with rfl | hp'
                · show (insertF fuel child u v).1.key.head? = some c
                  rw [ihkey]
                  exact hhead
                · exact hh p hp'
              · intro p hp
                rcases setChild_mem _ _ _ p hp with rfl | hp'
                · exact ihwf
                · exact hw p hp'
          refine ⟨hwfnew, rfl, ?_, ?_⟩
          · rw [ihinc, endAt_cons_some _ hwf c kt child hfc, if_pos hpfx, hdropk]
          · intro k'
            by_cases hk'h : k'.head? = some c
            · cases k' with
              | nil => simp at hk'h
              | cons c' w =>
                have hc' : c' = c := by simpa using hk'h
                subst hc'
                rw [endAt_cons_some _ hwfnew c' w _ (findChild_setChild_self c' _ ch)]
                rw [endAt_cons_some _ hwf c' w child hfc, ihkey]
                by_cases hp : pfxOf child.key (c' :: w) = true
                · rw [if_pos hp, if_pos hp]
                  rw [ihend ((c' :: w).drop child.key.length)]
                  obtain ⟨w', hw'⟩ := (pfxOf_iff _ _).1 hp
                  have hdw : (c' :: w).drop child.key.length = w' := by
                    rw [← hw']
                    exact List.drop_left _ _
                  rw [hdw]
                  have hiff : (w' = u) ↔ (c' :: w = c' :: kt) := by
                    constructor
                    · intro he
                      rw [← hw', ← hu, he]
                    · intro he
                      have h3 : child.key ++ w' = child.key ++ u := by
                        rw [hw', hu, he]
                      exact List.append_cancel_left h3
                  rw [decide_eq_decide.mpr hiff]
                · rw [if_neg hp, if_neg hp]
                  have hne : ¬(c' :: w = c' :: kt) := by
                    intro he
                    rw [he] at hp
                    exact hp hpfx
                  simp [hne]
            · rw [endAt_setChild_outside _ _ _ _ _ _ hwf hwfnew k' hk'h]
              have hne : ¬(k' = c :: kt) := by
                intro he
                rw [he] at hk'h
                simp at hk'h
              simp [hne]
        · by_cases hcp2 : lcp child.key (c :: kt) = c :: kt
          · -- the inserted key is a proper prefix of the child label: split the child
            obtain ⟨rest, hrest⟩ := lcp_pfx_left child.key (c :: kt)
            cases rest with
            | nil =>
              rw [List.append_nil] at hrest
              exact absurd hrest hcp1
            | cons d ds =>
              rw [hcp2] at hrest
              have hckform : child.key = (c :: kt) ++ d :: ds := hrest.symm
              have hdropck : child.key.drop (lcp child.key (c :: kt)).length = d :: ds := by
                rw [hcp2, hckform]
                exact List.drop_left _ _
              have hpfxfalse : pfxOf child.key (c :: kt) = false :=
                pfxOf_false_of_length (by rw [hckform]; simp)
              have heq : insertF (fuel + 1) (RNode.mk nk ch ne nv) (c :: kt) v =
                  (.mk nk (setChild c
                    (.mk (c :: kt)
                      [(d, .mk (d :: ds) child.children child.isEnd child.value)]
                      true (some v)) ch) ne nv, true) := by
                simp only [insertF, RNode.children_mk, hfc, RNode.key_mk, RNode.isEnd_mk,
                  RNode.value_mk]
                rw [if_neg hcp1, if_pos hcp2, hdropck, hcp2]
              rw [heq]
              have hwfsplit : WF (RNode.mk (d :: ds) child.children child.isEnd child.value) := by
                cases hwfc with
                | intro _ _ _ _ hh hw hnd hev => exact .intro _ _ _ _ hh hw hnd hev
              have hwfnchild : WF (RNode.mk (c :: kt)
                  [(d, RNode.mk (d :: ds) child.children child.isEnd child.value)]
                  true (some v)) := by
                refine .intro _ _ _ _ ?_ ?_ (by simp) (fun _ => rfl)
                · intro p hp
                  simp only [List.mem_singleton] at hp
                  subst hp
                  rfl
                · intro p hp
                  simp only [List.mem_singleton] at hp
                  subst hp
                  exact hwfsplit
              have hwfnew : WF (RNode.mk nk (setChild c (RNode.mk (c :: kt)
                  [(d, RNode.mk (d :: ds) child.children child.isEnd child.value)]
                  true (some v)) ch) ne nv) := by
                cases hwf with
                | intro _ _ _ _ hh hw hnd hev =>
                  refine .intro _ _ _ _ ?_ ?_ (setChild_nodup _ _ _ hnd) hev
                  · intro p hp
                    rcases setChild_mem _ _ _ p hp with rfl | hp'
                    · rfl
                    · exact hh p hp'
                  · intro p hp
                    rcases setChild_mem _ _ _ p hp with rfl | hp'
                    · exact hwfnchild
                    · exact hw p hp'
              refine ⟨hwfnew, rfl, ?_, ?_⟩
              · rw [endAt_cons_some _ hwf c kt child hfc]
                simp [hpfxfalse]
              · intro k'
                by_cases hk'h : k'.head? = some c
                · cases k' with
                  | nil => simp at hk'h
                  | cons c' w =>
                    have hc' : c' = c := by simpa using hk'h
                    subst hc'
                    rw [endAt_cons_some _ hwfnew c' w _ (findChild_setChild_self c' _ ch)]
                    rw [endAt_cons_some _ hwf c' w child hfc]
                    simp only [RNode.key_mk]
                    by_cases hp : pfxOf (c' :: kt) (c' :: w) = true
                    · rw [if_pos hp]
                      obtain ⟨w1, hw1⟩ := (pfxOf_iff _ _).1 hp
                      have hdw : (c' :: w).drop (c' :: kt).length = w1 := by
                        rw [← hw1]
                        exact List.drop_left _ _
                      rw [hdw]
                      cases w1 with
                      | nil =>
                        have hkeq : c' :: w = c' :: kt := by rw [← hw1]; simp
                        have hgate : pfxOf child.key (c' :: w) = false := by
                          rw [hkeq]
                          exact hpfxfalse
                        rw [endAt_nil]
                        simp [hkeq, hgate]
                      | cons e w2 =>
                        have hkne : ¬(c' :: w = c' :: kt) := by
                          rw [← hw1]
                          simp
                        have hpr : pfxOf child.key (c' :: w) = pfxOf (d :: ds) (e :: w2) := by
                          rw [hckform, ← hw1]
                          exact pfxOf_append_cancel _ _ _
                        by_cases hed : e = d
                        · subst hed
                          have hfcn : findChild e
                              [(e, RNode.mk (e :: ds) child.children child.isEnd child.value)] =
                              some (RNode.mk (e :: ds) child.children child.isEnd child.value) := by
                            simp [findChild]
                          rw [endAt_cons_some _ hwfnchild e w2 _ hfcn]
                          simp only [RNode.key_mk]
                          by_cases hp2 : pfxOf (e :: ds) (e :: w2) = true
                          · rw [if_pos hp2]
                            have hrw : pfxOf child.key (c' :: w) = true := by
                              rw [hpr]
                              exact hp2
                            rw [hrw, if_pos rfl]
                            have hdrop2 : (c' :: w).drop child.key.length =
                                (e :: w2).drop (e :: ds).length := by
                              rw [hckform, ← hw1, List.length_append]
                              exact drop_append_len _ _ _
                            rw [hdrop2]
                            rw [endAt_congr_parts child (e :: ds) hwfc]
                            simp [hkne]
                          · rw [if_neg hp2]
                            have hrw : pfxOf child.key (c' :: w) = false := by
                              rw [hpr]
                              simpa using hp2
                            rw [hrw]
                            simp [hkne]
                        · have hde : d ≠ e := fun h => hed h.symm
                          have hfcn : findChild e
                              [(d, RNode.mk (d :: ds) child.children child.isEnd child.value)] =
                              none := by
                            simp [findChild, hde]
                          rw [endAt_cons_none _ hwfnchild e w2 hfcn]
                          have hrw : pfxOf child.key (c' :: w) = false := by
                            rw [hpr]
                            simp [pfxOf, hde]
                          rw [hrw]
                          simp [hkne]
                    · rw [if_neg hp]
                      have hne : ¬(c' :: w = c' :: kt) := by
                        intro he
                        rw [he] at hp
                        exact hp (pfxOf_refl _)
                      have hgate : pfxOf child.key (c' :: w) = false := by
                        cases hv : pfxOf child.key (c' :: w) with
                        | false => rfl
                        | true =>
                          rw [hckform] at hv
                          exact absurd (pfxOf_of_append hv) (by simp [hp])
                      rw [hgate]
                      simp [hne]
                · rw [endAt_setChild_outside _ _ _ _ _ _ hwf hwfnew k' hk'h]
                  have hne : ¬(k' = c :: kt) := by
                    intro he
                    rw [he] at hk'h
                    simp at hk'h
                  simp [hne]
          · -- partial overlap: split into a fresh parent with two children
            obtain ⟨rest1, hrest1⟩ := lcp_pfx_left child.key (c :: kt)
            obtain ⟨rest2, hrest2⟩ := lcp_pfx_right child.key (c :: kt)
            cases rest1 with
            | nil =>
              rw [List.append_nil] at hrest1
              exact absurd hrest1 hcp1
            | cons d1 ds1 =>
            cases rest2 with
            | nil =>
              rw [List.append_nil] at hrest2
              exact absurd hrest2 hcp2
            | cons d2 ds2 =>
            have hd12 : d1 ≠ d2 := lcp_heads_ne child.key (c :: kt) d1 d2 ds1 ds2 hrest1 hrest2
            have hcpne : lcp child.key (c :: kt) ≠ [] := by
              obtain ⟨x, xs, hx⟩ : ∃ x xs, child.key = x :: xs := by
                cases hk : child.key with
                | nil => exact absurd hk hckne
                | cons x xs => exact ⟨x, xs, rfl⟩
              have hxc : x = c := by
                rw [hx] at hhead
                simpa using hhead
              rw [hx, hxc, lcp_cons_same]
              simp
            obtain ⟨L, hL⟩ : ∃ L, lcp child.key (c :: kt) = L := ⟨_, rfl⟩
            rw [hL] at hrest1 hrest2 hcp1 hcp2 hcpne
            have hckform : child.key = L ++ d1 :: ds1 := hrest1.symm
            have hkform : c :: kt = L ++ d2 :: ds2 := hrest2.symm
            have hdropck : child.key.drop L.length = d1 :: ds1 := by
              rw [hckform]
              exact List.drop_left _ _
            have hdropk2 : (c :: kt).drop L.length = d2 :: ds2 := by
              conv_lhs => rw [hkform]
              exact List.drop_left _ _
            have hpfxfalse : pfxOf child.key (c :: kt) = false := by
              cases hv : pfxOf child.key (c :: kt) with
              | false => rfl
              | true =>
                obtain ⟨t, ht⟩ := (pfxOf_iff _ _).1 hv
                rw [hckform, hkform] at ht
                rw [List.append_assoc] at ht
                have := List.append_cancel_left ht
                simp only [List.cons_append, List.cons.injEq] at this
                exact absurd this.1 hd12
            have heq : insertF (fuel + 1) (RNode.mk nk ch ne nv) (c :: kt) v =
                (.mk nk (setChild c
                  (.mk L
                    [(d1, .mk (d1 :: ds1) child.children child.isEnd child.value),
                     (d2, .mk (d2 :: ds2) [] true (some v))]
                    false none) ch) ne nv, true) := by
              simp only [insertF, RNode.children_mk, hfc, RNode.key_mk, RNode.isEnd_mk,
                RNode.value_mk]
              rw [hL, if_neg hcp1, if_neg hcp2, hdropck, hdropk2]
            rw [heq]
            have hcphead : L.head? = some c := by
              cases hLc : L with
              | nil => exact absurd hLc hcpne
              | cons y ys =>
                have h7 : c :: kt = y :: (ys ++ d2 :: ds2) := by
                  rw [hkform, hLc]
                  rfl
                injection h7 with h7a h7b
                rw [← h7a]
                rfl
            have hwfex : WF (RNode.mk (d1 :: ds1) child.children child.isEnd child.value) := by
              cases hwfc with
              | intro _ _ _ _ hh hw hnd hev => exact .intro _ _ _ _ hh hw hnd hev
            have hwfnw : WF (RNode.mk (d2 :: ds2) ([] : List (Char × RNode V)) true (some v)) :=
              .intro _ _ _ _ (by intro p hp; simp at hp) (by intro p hp; simp at hp)
                (by simp) (fun _ => rfl)
            have hwfpar : WF (RNode.mk L
                [(d1, RNode.mk (d1 :: ds1) child.children child.isEnd child.value),
                 (d2, RNode.mk (d2 :: ds2) [] true (some v))] false none) := by
              refine .intro _ _ _ _ ?_ ?_ ?_ (by intro h; cases h)
              · intro p hp
                simp only [List.mem_cons, List.not_mem_nil, or_false] at hp
                rcases hp with rfl | rfl
                · rfl
                · rfl
              · intro p hp
                simp only [List.mem_cons, List.not_mem_nil, or_false] at hp
                rcases hp with rfl | rfl
                · exact hwfex
                · exact hwfnw
              · simp [hd12]
            have hwfnew : WF (RNode.mk nk (setChild c (RNode.mk L
                [(d1, RNode.mk (d1 :: ds1) child.children child.isEnd child.value),
                 (d2, RNode.mk (d2 :: ds2) [] true (some v))] false none) ch) ne nv) := by
              cases hwf with
              | intro _ _ _ _ hh hw hnd hev =>
                refine .intro _ _ _ _ ?_ ?_ (setChild_nodup _ _ _ hnd) hev
                · intro p hp
                  rcases setChild_mem _ _ _ p hp with rfl | hp'
                  · exact hcphead
                  · exact hh p hp'
                · intro p hp
                  rcases setChild_mem _ _ _ p hp with rfl | hp'
                  · exact hwfpar
                  · exact hw p hp'
            refine ⟨hwfnew, rfl, ?_, ?_⟩
            · rw [endAt_cons_some _ hwf c kt child hfc]
              simp [hpfxfalse]
            · intro k'
              by_cases hk'h : k'.head? = some c
              · cases k' with
                | nil => simp at hk'h
                | cons c' w =>
                  have hc' : c' = c := by simpa using hk'h
                  subst hc'
                  rw [endAt_cons_some _ hwfnew c' w _ (findChild_setChild_self c' _ ch)]
                  rw [endAt_cons_some _ hwf c' w child hfc]
                  simp only [RNode.key_mk]
                  by_cases hp : pfxOf L (c' :: w) = true
                  · rw [if_pos hp]
                    obtain ⟨w1, hw1⟩ := (pfxOf_iff _ _).1 hp
                    have hdw : (c' :: w).drop L.length = w1 := by
                      rw [← hw1]
                      exact List.drop_left _ _
                    rw [hdw]
                    cases w1 with
                    | nil =>
                      -- k' equals the common prefix: neither side ends here
                      have hkne : ¬(c' :: w = c' :: kt) := by
                        intro he
                        rw [List.append_nil] at hw1
                        rw [he] at hw1
                        exact hcp2 hw1
                      have hgate : pfxOf child.key (c' :: w) = false := by
                        rw [List.append_nil] at hw1
                        rw [← hw1]
                        apply pfxOf_false_of_length
                        rw [hckform]
                        simp
                      rw [endAt_nil]
                      simp [hkne, hgate]
                    | cons e w2 =>
                      by_cases hed1 : e = d1
                      · subst hed1
                        have hfcn : findChild e
                            [(e, RNode.mk (e :: ds1) child.children child.isEnd child.value),
                             (d2, RNode.mk (d2 :: ds2) [] true (some v))] =
                            some (RNode.mk (e :: ds1) child.children child.isEnd child.value) := by
                          simp [findChild]
                        rw [endAt_cons_some _ hwfpar e w2 _ hfcn]
                        simp only [RNode.key_mk]
                        have hkne : ¬(c' :: w = c' :: kt) := by
                          intro he
                          rw [he] at hw1
                          rw [hkform] at hw1
                          have := List.append_cancel_left hw1
                          simp only [List.cons.injEq] at this
                          exact hd12 this.1
                        have hpr : pfxOf child.key (c' :: w) = pfxOf (e :: ds1) (e :: w2) := by
                          rw [hckform, ← hw1]
                          exact pfxOf_append_cancel _ _ _
                        by_cases hp2 : pfxOf (e :: ds1) (e :: w2) = true
                        · rw [if_pos hp2]
                          have hrw : pfxOf child.key (c' :: w) = true := by
                            rw [hpr]
                            exact hp2
                          rw [hrw, if_pos rfl]
                          have hdrop2 : (c' :: w).drop child.key.length =
                              (e :: w2).drop (e :: ds1).length := by
                            rw [hckform, ← hw1, List.length_append]
                            exact drop_append_len _ _ _
                          rw [hdrop2]
                          rw [endAt_congr_parts child (e :: ds1) hwfc]
                          simp [hkne]
                        · rw [if_neg hp2]
                          have hrw : pfxOf child.key (c' :: w) = false := by
                            rw [hpr]
                            simpa using hp2
                          rw [hrw]
                          simp [hkne]
                      · by_cases hed2 : e = d2
                        · subst hed2
                          have hd1e : d1 ≠ e := fun h => hed1 h.symm
                          have hfcn : findChild e
                              [(d1, RNode.mk (d1 :: ds1) child.children child.isEnd child.value),
                               (e, RNode.mk (e :: ds2) [] true (some v))] =
                              some (RNode.mk (e :: ds2) [] true (some v)) := by
                            simp [findChild, hd1e]
                          rw [endAt_cons_some _ hwfpar e w2 _ hfcn]
                          simp only [RNode.key_mk]
                          have hgate : pfxOf child.key (c' :: w) = false := by
                            have : pfxOf child.key (c' :: w) = pfxOf (d1 :: ds1) (e :: w2) := by
                              rw [hckform, ← hw1]
                              exact pfxOf_append_cancel _ _ _
                            rw [this]
                            simp [pfxOf, hd1e]
                          rw [hgate]
                          by_cases hp2 : pfxOf (e :: ds2) (e :: w2) = true
                          · rw [if_pos hp2]
                            obtain ⟨w3, hw3⟩ := (pfxOf_iff _ _).1 hp2
                            have hdw3 : (e :: w2).drop (e :: ds2).length = w3 := by
                              rw [← hw3]
                              exact List.drop_left _ _
                            rw [hdw3, endAt_no_children]
                            cases w3 with
                            | nil =>
                              have hkeq : c' :: w = c' :: kt := by
                                rw [← hw1, ← hw3, hkform]
                                simp
                              simp [hkeq]
                            | cons y ys =>
                              have hkne : ¬(c' :: w = c' :: kt) := by
                                intro he
                                rw [he, hkform] at hw1
                                have h5 := List.append_cancel_left hw1
                                rw [← hw3] at h5
                                simp only [List.cons_append, List.cons.injEq] at h5
                                -- ds2 ++ y :: ys = ds2 is impossible by length
                                have h6 := congrArg List.length h5.2
                                simp at h6
                              simp [hkne]
                          · rw [if_neg hp2]
                            have hkne : ¬(c' :: w = c' :: kt) := by
                              intro he
                              rw [he, hkform] at hw1
                              have h5 := List.append_cancel_left hw1
                              rw [← h5] at hp2
                              exact hp2 (pfxOf_refl _)
                            simp [hkne]
                        · have hd1e : d1 ≠ e := fun h => hed1 h.symm
                          have hd2e : d2 ≠ e := fun h => hed2 h.symm
                          have hfcn : findChild e
                              [(d1, RNode.mk (d1 :: ds1) child.children child.isEnd child.value),
                               (d2, RNode.mk (d2 :: ds2) [] true (some v))] = none := by
                            simp [findChild, hd1e, hd2e]
                          rw [endAt_cons_none _ hwfpar e w2 hfcn]
                          have hgate : pfxOf child.key (c' :: w) = false := by
                            have : pfxOf child.key (c' :: w) = pfxOf (d1 :: ds1) (e :: w2) := by
                              rw [hckform, ← hw1]
                              exact pfxOf_append_cancel _ _ _
                            rw [this]
                            simp [pfxOf, hd1e]
                          rw [hgate]
                          have hkne : ¬(c' :: w = c' :: kt) := by
                            intro he
                            rw [he, hkform] at hw1
                            have h5 := List.append_cancel_left hw1
                            simp only [List.cons.injEq] at h5
                            exact hed2 h5.1
                          simp [hkne]
                  · rw [if_neg hp]
                    -- the key misses the common prefix entirely
                    have hkne : ¬(c' :: w = c' :: kt) := by
                      intro he
                      rw [he] at hp
                      exact hp ((pfxOf_iff _ _).2 ⟨d2 :: ds2, hrest2⟩)
                    have hgate : pfxOf child.key (c' :: w) = false := by
                      cases hv : pfxOf child.key (c' :: w) with
                      | false => rfl
                      | true =>
                        rw [hckform] at hv
                        exact absurd (pfxOf_of_append hv) (by simp [hp])
                    rw [hgate]
                    simp [hkne]
              · rw [endAt_setChild_outside _ _ _ _ _ _ hwf hwfnew k' hk'h]
                have hne : ¬(k' = c :: kt) := by
                  intro he
                  rw [he] at hk'h
                  simp at hk'h
                simp [hne]

theorem WF_fresh {V : Type} : WF (RNode.mk ([] : Str) ([] : List (Char × RNode V)) false none) :=
  .intro _ _ _ _ (by intro p hp; simp at hp) (by intro p hp; simp at hp) (by simp)
    (by intro h; cases h)

theorem endAt_fresh {V : Type} (k : Str) :
    endAt (RNode.mk ([] : Str) ([] : List (Char × RNode V)) false none) k = false := by
  rw [endAt_no_children]
  simp

theorem Search_isSome_eq_endAt {V : Type} (t : RadixTree V) (hwf : WF t.root) (k : Str)
    (hk : k ≠ []) : (t.Search k).isSome = endAt t.root k := by
  unfold RadixTree.Search endAt
  rw [if_neg hk]
  cases hs : searchN t.root k with
  | none => rfl
  | some m =>
    dsimp only
    by_cases he : m.isEnd = true
    · rw [if_pos he, he]
      exact searchF_end_value _ _ _ _ hwf hs he
    · rw [if_neg he]
      rw [Bool.not_eq_true] at he
      rw [he]
      rfl

theorem fold_insert_inv {V : Type} : ∀ (l : List (Str × V)) (t : RadixTree V),
    WF t.root → (∀ p ∈ l, p.1 ≠ []) →
    ∀ (s : Finset Str), (∀ k, endAt t.root k = decide (k ∈ s)) → t.size = s.card →
    WF (l.foldl (fun a p => a.Insert p.1 p.2) t).root ∧
    (∀ k, endAt (l.foldl (fun a p => a.Insert p.1 p.2) t).root k =
      decide (k ∈ s ∪ (l.map Prod.fst).toFinset)) ∧
    (l.foldl (fun a p => a.Insert p.1 p.2) t).size = (s ∪ (l.map Prod.fst).toFinset).card := by
  intro l
  induction l with
  | nil =>
    intro t hwf _ s hend hsize
    refine ⟨hwf, ?_, ?_⟩
    · intro k
      simpa using hend k
    · simpa using hsize
  | cons p rest ih =>
    intro t hwf hne s hend hsize
    obtain ⟨k, v⟩ := p
    have hk : k ≠ [] := hne (k, v) (by simp)
    rw [List.foldl_cons]
    have hins : t.Insert k v =
        ⟨(insertF (k.length + 1) t.root k v).1,
          t.size + if (insertF (k.length + 1) t.root k v).2 then 1 else 0⟩ := by
      unfold RadixTree.Insert insertN
      rw [if_neg hk]
    obtain ⟨hw1, _, hinc1, hend1⟩ := insertF_spec (k.length + 1) t.root k v hwf (by omega)
    have hwfnew : WF (t.Insert k v).root := by
      rw [hins]
      exact hw1
    have hendnew : ∀ k', endAt (t.Insert k v).root k' = decide (k' ∈ insert k s) := by
      intro k'
      rw [hins]
      dsimp only
      rw [hend1 k', hend k']
      simp only [Finset.mem_insert]
      by_cases hkk : k' = k
      · simp [hkk]
      · simp [hkk]
    have hsizenew : (t.Insert k v).size = (insert k s).card := by
      rw [hins]
      dsimp only
      rw [hinc1, hend k]
      by_cases hkk : k ∈ s
      · simp [hkk, Finset.card_insert_of_mem hkk, hsize]
      · simp [hkk, Finset.card_insert_of_not_mem hkk, hsize]
    have hne' : ∀ q ∈ rest, (q : Str × V).1 ≠ [] :=
      fun q hq => hne q (List.mem_cons_of_mem _ hq)
    obtain ⟨ha, hb, hc⟩ := ih (t.Insert k v) hwfnew hne' (insert k s) hendnew hsizenew
    have hset : insert k s ∪ (rest.map Prod.fst).toFinset =
        s ∪ (((k, v) :: rest).map Prod.fst).toFinset := by
      rw [List.map_cons, List.toFinset_cons, Finset.union_insert, Finset.insert_union]
    refine ⟨ha, ?_, ?_⟩
    · intro k'
      rw [hb k', hset]
    · rw [hc, hset]

/-- **C5** Radix-tree round trip: inserting any finite list of nonempty
keys (with values, in any order, duplicates allowed) into a fresh tree
gives a tree in which `Search` hits exactly the inserted keys, and
`Size` equals the number of distinct inserted keys (`size` is bumped
exactly when a new end marker is created). -/
theorem C5_radix_roundtrip {V : Type} (l : List (Str × V)) (hne : ∀ p ∈ l, p.1 ≠ []) :
    (∀ k, ((l.foldl (fun a p => a.Insert p.1 p.2) (NewRadixTree (V := V))).Search k).isSome =
      decide (k ∈ l.map Prod.fst)) ∧
    (l.foldl (fun a p => a.Insert p.1 p.2) (NewRadixTree (V := V))).Size =
      (l.map Prod.fst).toFinset.card := by
  have h0end : ∀ k, endAt (NewRadixTree (V := V)).root k = decide (k ∈ (∅ : Finset Str)) := by
    intro k
    show endAt (RNode.mk [] [] false none) k = _
    rw [endAt_fresh]
    simp
  obtain ⟨hwf, hend, hsize⟩ :=
    fold_insert_inv l (NewRadixTree (V := V)) WF_fresh hne ∅ h0end (by simp [NewRadixTree])
  constructor
  · intro k
    by_cases hk : k = []
    · subst hk
      have hmem : ¬([] ∈ l.map Prod.fst) := by
        intro hm
        obtain ⟨p, hp, hp1⟩ := List.mem_map.1 hm
        exact hne p hp hp1
      simp [RadixTree.Search, hmem]
    · rw [Search_isSome_eq_endAt _ hwf k hk, hend k]
      exact decide_eq_decide.mpr (by rw [Finset.empty_union, List.mem_toFinset])
  · rw [RadixTree.Size, hsize, Finset.empty_union]

/-- Witness for C5 on the concrete insertion list
`[("ab", 0), ("a", 1), ("ab", 2)]`: the duplicate key is deduplicated in
the size, and `Search "a"` hits. -/
theorem C5_witness :
    ((([(['a', 'b'], 0), (['a'], 1), (['a', 'b'], 2)] : List (Str × Nat)).foldl
        (fun a p => a.Insert p.1 p.2) (NewRadixTree (V := Nat))).Search ['a']).isSome =
      decide (['a'] ∈ ([(['a', 'b'], 0), (['a'], 1), (['a', 'b'], 2)] :
        List (Str × Nat)).map Prod.fst) ∧
    (([(['a', 'b'], 0), (['a'], 1), (['a', 'b'], 2)] : List (Str × Nat)).foldl
        (fun a p => a.Insert p.1 p.2) (NewRadixTree (V := Nat))).Size =
      (([(['a', 'b'], 0), (['a'], 1), (['a', 'b'], 2)] :
        List (Str × Nat)).map Prod.fst).toFinset.card :=
  ⟨(C5_radix_roundtrip [(['a', 'b'], 0), (['a'], 1), (['a', 'b'], 2)] (by decide)).1 ['a'],
   (C5_radix_roundtrip [(['a', 'b'], 0), (['a'], 1), (['a', 'b'], 2)] (by decide)).2⟩

/-! ### C3: the wildcard matcher -/

theorem wildProbe_isSome_iff {V : Type} (t : RadixTree V) : ∀ (L : List Str),
    (wildProbe t L).isSome = true ↔
      ∃ i, 1 ≤ i ∧ i < L.length ∧ (t.Search (joinDots (L.drop i))).isSome = true := by
  intro L
  induction L with
  | nil =>
    simp only [wildProbe, Option.isSome_none, List.length_nil]
    constructor
    · intro h; cases h
    · rintro ⟨i, h1, h2, h3⟩; omega
  | cons p rest ih =>
    cases rest with
    | nil =>
      simp only [wildProbe, List.isEmpty_nil, if_true, Option.isSome_none, List.length_cons,
        List.length_nil]
      constructor
      · intro h; cases h
      · rintro ⟨i, h1, h2, h3⟩; omega
    | cons q rest' =>
      cases hs : t.Search (joinDots (q :: rest')) with
      | some v =>
        have hstep : wildProbe t (p :: q :: rest') = some v := by
          simp [wildProbe, hs]
        rw [hstep]
        simp only [Option.isSome_some, true_iff]
        exact ⟨1, le_refl 1, by simp, by simp [hs]⟩
      | none =>
        have hstep : wildProbe t (p :: q :: rest') = wildProbe t (q :: rest') := by
          simp [wildProbe, hs]
        rw [hstep, ih]
        constructor
        · rintro ⟨i, h1, h2, h3⟩
          have h2' : i + 1 < (p :: q :: rest').length := by
            simp only [List.length_cons] at h2 ⊢
            omega
          exact ⟨i + 1, by omega, h2', by simpa [List.drop_succ_cons] using h3⟩
        · rintro ⟨i, h1, h2, h3⟩
          rcases Nat.eq_or_lt_of_le h1 with rfl | hgt
          · rw [List.drop_succ_cons, List.drop_zero] at h3
            rw [hs] at h3
            cases h3
          · have h2' : i - 1 < (q :: rest').length := by
              simp only [List.length_cons] at h2 ⊢
              omega
            refine ⟨i - 1, by omega, h2', ?_⟩
            have hdrop : (p :: q :: rest').drop i = (q :: rest').drop (i - 1) := by
              cases i with
              | zero => omega
              | succ i' => simp [List.drop_succ_cons]
            rwa [hdrop] at h3

theorem wildProbe_first {V : Type} (t : RadixTree V) : ∀ (L : List Str) (j : Nat),
    1 ≤ j → j < L.length → (t.Search (joinDots (L.drop j))).isSome = true →
    (∀ i, 1 ≤ i → i < j → t.Search (joinDots (L.drop i)) = none) →
    wildProbe t L = t.Search (joinDots (L.drop j)) := by
  intro L
  induction L with
  | nil => intro j h1 h2; simp at h2
  | cons p rest ih =>
    intro j h1 h2 h3 h4
    cases rest with
    | nil => simp at h2; omega
    | cons q rest' =>
      rcases Nat.eq_or_lt_of_le h1 with rfl | hgt
      · rw [List.drop_succ_cons, List.drop_zero] at h3 ⊢
        cases hs : t.Search (joinDots (q :: rest')) with
        | none => rw [hs] at h3; cases h3
        | some v => simp [wildProbe, hs]
      · have hmiss : t.Search (joinDots (q :: rest')) = none := by
          have := h4 1 (le_refl 1) hgt
          simpa using this
        have hstep : wildProbe t (p :: q :: rest') = wildProbe t (q :: rest') := by
          simp [wildProbe, hmiss]
        rw [hstep]
        have hdropj : (p :: q :: rest').drop j = (q :: rest').drop (j - 1) := by
          cases j with
          | zero => omega
          | succ j' => simp [List.drop_succ_cons]
        rw [hdropj] at h3 ⊢
        refine ih (j - 1) (by omega) (by simp at h2 ⊢; omega) h3 ?_
        intro i hi1 hi2
        have := h4 (i + 1) (by omega) (by omega)
        simpa [List.drop_succ_cons] using this

/-- A wildcard registry entry `*.wildcard.com`. -/
def entryWild : RegistryEntry := { Type' := .Wildcard, Domain := "*.wildcard.com".toList }

/-- A registry whose only entry is the wildcard rule. -/
def regWild : Registry := { Entries := [entryWild] }

/-- The index state built by `Update` from `regWild`. -/
noncomputable def storeC3 : MemoryStore := (NewMemoryStore.Update (some regWild)).1

/-- **C3** For every radix tree and domain string `d`,
`MatchesWildcard(d)` splits `d` on `'.'` and probes, for `i` from 1
upward in increasing order, `Search(join(parts[i:], "."))`, returning
the value of the first hit; a hit exists iff some proper dot-suffix of
`d` (starting index ≥ 1) is found by `Search`.  In particular `d` itself
is never probed: after `Update` of a registry whose only entry is
`*.wildcard.com`, `IsBlocked("wildcard.com")` is not blocked. -/
theorem C3_matchesWildcard (V : Type) (t : RadixTree V) (d : Str) :
    ((t.MatchesWildcard d).isSome = true ↔
      ∃ i, 1 ≤ i ∧ i < (splitOnChar '.' d).length ∧
        (t.Search (joinDots ((splitOnChar '.' d).drop i))).isSome = true) ∧
    (∀ j, 1 ≤ j → j < (splitOnChar '.' d).length →
      (t.Search (joinDots ((splitOnChar '.' d).drop j))).isSome = true →
      (∀ i, 1 ≤ i → i < j → t.Search (joinDots ((splitOnChar '.' d).drop i)) = none) →
      t.MatchesWildcard d = t.Search (joinDots ((splitOnChar '.' d).drop j))) ∧
    (storeC3.IsBlocked "wildcard.com".toList).IsBlocked = false := by
  refine ⟨wildProbe_isSome_iff t _,
    fun j h1 h2 h3 h4 => wildProbe_first t _ j h1 h2 h3 h4, ?_⟩
  have hk : ¬(("wildcard.com".toList : Str) = []) := by decide
  by_cases hb : storeC3.bloom.Contains "wildcard.com".toList = false
  · unfold MemoryStore.IsBlocked
    rw [if_neg hk, if_pos hb]
    rfl
  · have hb' : storeC3.bloom.Contains "wildcard.com".toList = true := by
      simpa using hb
    have hd : mapLookup storeC3.domains "wildcard.com".toList = none := rfl
    have hi : mapLookup storeC3.ips "wildcard.com".toList = none := rfl
    have hw : storeC3.wildcards.MatchesWildcard "wildcard.com".toList = none := rfl
    have hu : mapLookup storeC3.urlPatterns "wildcard.com".toList = none := rfl
    unfold MemoryStore.IsBlocked
    rw [if_neg hk, hb']
    rw [if_neg (by simp : ¬(true = false))]
    rw [hd, hi, hw, hu]
    rfl

/-- A tree holding the base domain of a wildcard rule. -/
def treeWild : RadixTree Nat := NewRadixTree.Insert "example.com".toList 7

/-- Witness for C3: on `sub.example.com`, the first probe `example.com`
hits and decides the result. -/
theorem C3_witness :
    treeWild.MatchesWildcard "sub.example.com".toList =
      treeWild.Search (joinDots ((splitOnChar '.' "sub.example.com".toList).drop 1)) := by
  exact (C3_matchesWildcard Nat treeWild "sub.example.com".toList).2.1 1 (le_refl 1)
    (by decide) (by decide) (by intro i h1 h2; omega)

/-- Witness for the amended C6 at `n = 10`, `p = 1/2`. -/
theorem C6_witness :
    (NewBloomFilter 10 (1 / 2)).size =
      (⌊-(10 : ℝ) * Real.log (1 / 2) / (Real.log 2 * Real.log 2)⌋).toNat ∧
    (NewBloomFilter 10 (1 / 2)).bits.length = ((NewBloomFilter 10 (1 / 2)).size + 63) / 64 := by
  have h := C6_bloom_constructor 10 (1 / 2) (by norm_num) (by norm_num) (by norm_num)
  refine ⟨?_, h.1.2.2⟩
  have := h.1.1
  rwa [show (((10 : Nat) : ℝ)) = (10 : ℝ) by norm_num] at this

/-! ### C4: idempotence of `Normalize` — character-level facts -/

theorem char_le_iff (a b : Char) : a ≤ b ↔ a.toNat ≤ b.toNat := by
  rw [Char.le_def, UInt32.le_def, BitVec.le_def]
  exact Iff.rfl

theorem char_toNat_ofNat (n : Nat) (h : n < 55296) : (Char.ofNat n).toNat = n := by
  unfold Char.ofNat
  rw [dif_pos (Or.inl h)]
  rfl

theorem char_eq_of_toNat (a b : Char) (h : a.toNat = b.toNat) : a = b := by
  rw [← Char.ofNat_toNat a, ← Char.ofNat_toNat b, h]

theorem toLowerChar_toNat_upper (c : Char) (h : 'A' ≤ c ∧ c ≤ 'Z') :
    (toLowerChar c).toNat = c.toNat + 32 := by
  unfold toLowerChar
  rw [if_pos h]
  have hz : c.toNat ≤ 90 := (char_le_iff c 'Z').1 h.2
  exact char_toNat_ofNat _ (by omega)

theorem toLowerChar_eq_self (c : Char) (h : ¬('A' ≤ c ∧ c ≤ 'Z')) : toLowerChar c = c := by
  unfold toLowerChar
  rw [if_neg h]

theorem toLowerChar_toNat_facts (c : Char) :
    ((toLowerChar c).toNat = c.toNat ∧ ¬(65 ≤ c.toNat ∧ c.toNat ≤ 90)) ∨
    ((toLowerChar c).toNat = c.toNat + 32 ∧ 65 ≤ c.toNat ∧ c.toNat ≤ 90) := by
  by_cases h : 'A' ≤ c ∧ c ≤ 'Z'
  · right
    exact ⟨toLowerChar_toNat_upper c h, (char_le_iff 'A' c).1 h.1, (char_le_iff c 'Z').1 h.2⟩
  · left
    constructor
    · rw [toLowerChar_eq_self c h]
    · intro ⟨h1, h2⟩
      exact h ⟨(char_le_iff 'A' c).2 h1, (char_le_iff c 'Z').2 h2⟩

theorem toLowerChar_idem (c : Char) : toLowerChar (toLowerChar c) = toLowerChar c := by
  rcases toLowerChar_toNat_facts c with ⟨h1, h2⟩ | ⟨h1, h2, h3⟩
  · apply toLowerChar_eq_self
    intro ⟨ha, hb⟩
    exact h2 ⟨by rw [← h1]; exact (char_le_iff 'A' _).1 ha,
      by rw [← h1]; exact (char_le_iff _ 'Z').1 hb⟩
  · apply toLowerChar_eq_self
    intro ⟨ha, hb⟩
    have hz : c.toNat + 32 ≤ 90 := by
      rw [← h1]
      exact (char_le_iff _ 'Z').1 hb
    omega

theorem toLowerChar_lt128 (c : Char) (h : c.toNat < 128) : (toLowerChar c).toNat < 128 := by
  rcases toLowerChar_toNat_facts c with ⟨h1, _⟩ | ⟨h1, _, h3⟩ <;> omega

theorem allowedHostChar_toLower (c : Char) (h : allowedHostChar c = true) :
    allowedHostChar (toLowerChar c) = true := by
  by_cases hu : 'A' ≤ c ∧ c ≤ 'Z'
  · have h1 := toLowerChar_toNat_upper c hu
    have h2 : 65 ≤ c.toNat := (char_le_iff 'A' c).1 hu.1
    have h3 : c.toNat ≤ 90 := (char_le_iff c 'Z').1 hu.2
    unfold allowedHostChar isAlnumCh isAlphaCh
    apply Bool.or_eq_true_iff.2
    left
    apply Bool.or_eq_true_iff.2
    left
    apply Bool.or_eq_true_iff.2
    left
    apply Bool.or_eq_true_iff.2
    left
    apply Bool.and_eq_true_iff.2
    constructor
    · exact decide_eq_true ((char_le_iff _ _).2
        (show (97 : Nat) ≤ (toLowerChar c).toNat by rw [h1]; omega))
    · exact decide_eq_true ((char_le_iff _ _).2
        (show (toLowerChar c).toNat ≤ (122 : Nat) by rw [h1]; omega))
  · rw [toLowerChar_eq_self c hu]
    exact h

theorem goodChar_ne (c : Char) (h : allowedHostChar c = true) :
    c ≠ '/' ∧ c ≠ '?' ∧ c ≠ '#' ∧ c ≠ '@' := by
  refine ⟨?_, ?_, ?_, ?_⟩ <;> (intro he; subst he; exact absurd h (by decide))

theorem goodChar_notSpace (c : Char) (h : allowedHostChar c = true) : isSpaceCh c = false := by
  cases hs : isSpaceCh c with
  | false => rfl
  | true =>
    unfold isSpaceCh at hs
    simp only [Bool.or_eq_true, decide_eq_true_eq, or_assoc] at hs
    rcases hs with rfl | rfl | rfl | rfl | rfl | rfl <;> exact absurd h (by decide)

theorem goodChar_toNat (c : Char) (h : allowedHostChar c = true) :
    32 ≤ c.toNat ∧ c.toNat ≠ 127 := by
  unfold allowedHostChar isAlnumCh isAlphaCh isDigitCh at h
  simp only [Bool.or_eq_true, Bool.and_eq_true, decide_eq_true_eq, char_le_iff, or_assoc] at h
  have e1 : ('a').toNat = 97 := by decide
  have e2 : ('z').toNat = 122 := by decide
  have e3 : ('A').toNat = 65 := by decide
  have e4 : ('Z').toNat = 90 := by decide
  have e5 : ('0').toNat = 48 := by decide
  have e6 : ('9').toNat = 57 := by decide
  rcases h with ⟨h1, h2⟩ | ⟨h1, h2⟩ | ⟨h1, h2⟩ | rfl | rfl | rfl | rfl | rfl | rfl | rfl | rfl |
    rfl | rfl | rfl | rfl | rfl | rfl | rfl | rfl | rfl | rfl | rfl | rfl | rfl | h
  · rw [e1] at h1; rw [e2] at h2; omega
  · rw [e3] at h1; rw [e4] at h2; omega
  · rw [e5] at h1; rw [e6] at h2; omega
  all_goals first
  | exact ⟨by decide, by decide⟩
  | omega

theorem digit_allowedHostChar (c : Char) (h : isDigitCh c = true) :
    allowedHostChar c = true := by
  unfold allowedHostChar isAlnumCh
  rw [h]
  simp

theorem dot_allowedHostChar : allowedHostChar '.' = true := by decide

theorem digit_toLower (c : Char) (h : isDigitCh c = true) : toLowerChar c = c := by
  unfold isDigitCh at h
  simp only [Bool.and_eq_true, decide_eq_true_eq, char_le_iff] at h
  have e5 : ('0').toNat = 48 := by decide
  have e6 : ('9').toNat = 57 := by decide
  apply toLowerChar_eq_self
  intro ⟨h1, h2⟩
  have h1' := (char_le_iff _ _).1 h1
  have e3 : ('A').toNat = 65 := by decide
  rw [e3] at h1'
  rw [e5] at h
  rw [e6] at h
  omega

/-! String-identity lemmas for the second normalization pass. -/

theorem dropWhile_all_false {p : Char → Bool} :
    ∀ s : Str, (∀ c ∈ s, p c = false) → s.dropWhile p = s := by
  intro s h
  cases s with
  | nil => rfl
  | cons c t =>
    rw [List.dropWhile_cons]
    rw [h c (by simp)]
    simp

theorem trimSpace_id (s : Str) (h : ∀ c ∈ s, isSpaceCh c = false) : trimSpace s = s := by
  unfold trimSpace
  rw [dropWhile_all_false s h]
  rw [dropWhile_all_false s.reverse (by intro c hc; exact h c (List.mem_reverse.1 hc))]
  exact List.reverse_reverse s

theorem strToLower_id (s : Str) (h : ∀ c ∈ s, toLowerChar c = c) : strToLower s = s := by
  unfold strToLower
  induction s with
  | nil => rfl
  | cons c t ih =>
    rw [List.map_cons, h c (by simp), ih (fun c hc => h c (by simp [hc]))]

theorem takeWhile_all_true {p : Char → Bool} :
    ∀ s : Str, (∀ c ∈ s, p c = true) → s.takeWhile p = s := by
  intro s h
  induction s with
  | nil => rfl
  | cons c t ih =>
    rw [List.takeWhile_cons]
    rw [h c (by simp)]
    simp only [if_true]
    rw [ih (fun c hc => h c (by simp [hc]))]

theorem strContainsSub_false_of_head (c : Char) (nd : Str) :
    ∀ hay : Str, c ∉ hay → strContainsSub hay (c :: nd) = false := by
  intro hay
  induction hay with
  | nil => intro _; rfl
  | cons a t ih =>
    intro h
    unfold strContainsSub
    have hca : ¬(c = a) := by
      intro he
      exact h (by simp [he])
    unfold pfxOf
    simp only [hca, decide_False, Bool.false_and, Bool.false_or]
    exact ih (fun hm => h (by simp [hm]))

theorem lastIdx_none (c : Char) (s : Str) (h : c ∉ s) : lastIdx c s = none := by
  unfold lastIdx
  have : s.reverse.findIdx? (fun x => x = c) = none := by
    rw [List.findIdx?_eq_none_iff]
    intro x hx
    simp only [decide_eq_false_iff_not]
    intro he
    exact h (by rw [← he]; exact List.mem_reverse.1 hx)
  rw [this]

theorem find?_skip (p : Char → Bool) :
    ∀ (l r : Str), (∀ c ∈ l, p c = false) → (l ++ r).find? p = r.find? p := by
  intro l
  induction l with
  | nil => intro r _; rfl
  | cons c t ih =>
    intro r h
    rw [List.cons_append, List.find?_cons]
    rw [h c (by simp)]
    exact ih r (fun c hc => h c (by simp [hc]))

theorem splitOnAux_no_sep (sep : Char) :
    ∀ (l : Str) (acc : Str), sep ∉ l → splitOnAux sep l acc = [acc.reverse ++ l] := by
  intro l
  induction l with
  | nil => intro acc _; simp [splitOnAux]
  | cons c t ih =>
    intro acc h
    have hcs : ¬(c = sep) := by
      intro he
      exact h (by simp [he])
    simp only [splitOnAux]
    rw [if_neg hcs]
    rw [ih (c :: acc) (fun hm => h (by simp [hm]))]
    simp

theorem splitOnAux_sep (sep : Char) :
    ∀ (l r : Str) (acc : Str), sep ∉ l →
      splitOnAux sep (l ++ sep :: r) acc = (acc.reverse ++ l) :: splitOnAux sep r [] := by
  intro l
  induction l with
  | nil =>
    intro r acc _
    rw [List.nil_append]
    simp only [splitOnAux]
    simp
  | cons c t ih =>
    intro r acc h
    have hcs : ¬(c = sep) := by
      intro he
      exact h (by simp [he])
    rw [List.cons_append]
    simp only [splitOnAux]
    rw [if_neg hcs]
    rw [ih r (c :: acc) (fun hm => h (by simp [hm]))]
    simp

theorem splitOnAux_ne_nil (sep : Char) : ∀ (l acc : Str), splitOnAux sep l acc ≠ [] := by
  intro l
  induction l with
  | nil => intro acc; simp [splitOnAux]
  | cons c t ih =>
    intro acc
    simp only [splitOnAux]
    by_cases hcs : c = sep
    · rw [if_pos hcs]
      simp
    · rw [if_neg hcs]
      exact ih (c :: acc)

theorem joinDots_splitOnAux : ∀ (l acc : Str),
    joinDots (splitOnAux '.' l acc) = acc.reverse ++ l := by
  intro l
  induction l with
  | nil =>
    intro acc
    simp [splitOnAux, joinDots]
  | cons c t ih =>
    intro acc
    simp only [splitOnAux]
    by_cases hcs : c = '.'
    · rw [if_pos hcs]
      have hji : joinDots (splitOnAux '.' t []) = t := by
        rw [ih ([] : Str)]
        simp
      cases hq : splitOnAux '.' t [] with
      | nil => exact absurd hq (splitOnAux_ne_nil '.' t [])
      | cons q qs =>
        rw [hq] at hji
        rw [show joinDots (acc.reverse :: q :: qs) =
          acc.reverse ++ '.' :: joinDots (q :: qs) from rfl]
        rw [hji, hcs]
    · rw [if_neg hcs, ih (c :: acc)]
      simp

theorem joinDots_splitOnChar (s : Str) : joinDots (splitOnChar '.' s) = s := by
  unfold splitOnChar
  rw [joinDots_splitOnAux]
  rfl

theorem strHasPfx_bracket_false (s : Str) (hbr : '[' ∉ s) : strHasPfx s ['['] = false := by
  cases s with
  | nil => rfl
  | cons c t =>
    unfold strHasPfx pfxOf
    have hc : ¬('[' = c) := by
      intro he
      exact hbr (by rw [he]; simp)
    simp [hc]

theorem parseHost_canonical (s : Str)
    (hallow : ∀ c ∈ s, allowedHostChar c = true)
    (hcolon : ':' ∉ s) (hbr : '[' ∉ s) : parseHost s = .ok s := by
  have hci : lastIdx ':' s = none := lastIdx_none ':' s hcolon
  have hpfxbr : strHasPfx s ['['] = false := strHasPfx_bracket_false s hbr
  have hall : s.all allowedHostChar = true := by
    rw [List.all_eq_true]
    exact hallow
  unfold parseHost
  rw [hpfxbr, hci, hall]
  simp

theorem urlParseHost_http (s : Str)
    (hallow : ∀ c ∈ s, allowedHostChar c = true)
    (hcolon : ':' ∉ s) (hbr : '[' ∉ s) :
    urlParseHost (('h' :: 't' :: 't' :: 'p' :: ':' :: '/' :: '/' :: []) ++ s) = .ok s := by
  have htake : s.takeWhile (fun c => ¬(c = '/' ∨ c = '?' ∨ c = '#')) = s := by
    apply takeWhile_all_true
    intro c hc
    obtain ⟨h1, h2, h3, _⟩ := goodChar_ne c (hallow c hc)
    simp [h1, h2, h3]
  have hat : lastIdx '@' s = none := by
    apply lastIdx_none
    intro hm
    exact (goodChar_ne '@' (hallow _ hm)).2.2.2 rfl
  have hany : (('h' :: 't' :: 't' :: 'p' :: ':' :: '/' :: '/' :: []) ++ s).any
      (fun c => c.toNat < 0x20 || c.toNat = 0x7f) = false := by
    rw [List.any_eq_false]
    intro c hc
    rcases List.mem_append.1 hc with hc1 | hc2
    · simp only [List.mem_cons, List.not_mem_nil, or_false] at hc1
      rcases hc1 with rfl | rfl | rfl | rfl | rfl | rfl | rfl <;> decide
    · have hg := goodChar_toNat c (hallow c hc2)
      simp only [Bool.or_eq_true, decide_eq_true_eq, not_or]
      omega
  unfold urlParseHost
  rw [hany]
  rw [if_neg (show ¬(false = true) by simp)]
  rw [show getScheme (('h' :: 't' :: 't' :: 'p' :: ':' :: '/' :: '/' :: []) ++ s) =
    .ok (('h' :: 't' :: 't' :: 'p' :: []), ('/' :: '/' :: []) ++ s) from rfl]
  dsimp only
  rw [if_pos (show pfxOf ('/' :: '/' :: []) (('/' :: '/' :: []) ++ s) = true from rfl)]
  rw [show ((('/' :: '/' :: []) ++ s).drop 2) = s from rfl]
  rw [htake, hat]
  exact parseHost_canonical s hallow hcolon hbr

/-- Second-pass reduction: on a nonempty, already-lowercase host string
made of allowed host characters without `':'` or `'['`, `Normalize`
reduces to the `parseIP` / `normalizeDomain` dispatch. -/
theorem Normalize_canonical_host (s : Str) (hne : s ≠ [])
    (hallow : ∀ c ∈ s, allowedHostChar c = true)
    (hlow : ∀ c ∈ s, toLowerChar c = c)
    (hcolon : ':' ∉ s) (hbr : '[' ∉ s) :
    Normalize s = (match parseIP s with
      | some ip => .ok (normalizeIP ip)
      | none => normalizeDomain s) := by
  unfold Normalize
  rw [if_neg hne]
  have hts : trimSpace s = s := trimSpace_id s (fun c hc => goodChar_notSpace c (hallow c hc))
  rw [hts]
  dsimp only
  have hcs : strContainsSub s (':' :: '/' :: '/' :: []) = false :=
    strContainsSub_false_of_head ':' _ s hcolon
  rw [hcs]
  rw [if_neg (show ¬(false = true) by simp)]
  rw [urlParseHost_http s hallow hcolon hbr]
  dsimp only
  rw [if_neg hne]
  have hrp : removePort s = s := by
    unfold removePort
    have h1 : strContainsSub s [':'] = false := strContainsSub_false_of_head ':' [] s hcolon
    rw [h1]
    simp
  rw [hrp]
  rw [strToLower_id s hlow]
  cases hip : parseIP s with
  | some ip => rfl
  | none =>
    dsimp only
    rw [strHasPfx_bracket_false s hbr]
    simp

/-! IPv4 printing and parsing round trips. -/

theorem isDigitCh_ofNat (k : Nat) (h : k ≤ 9) : isDigitCh (Char.ofNat (48 + k)) = true := by
  unfold isDigitCh
  have ht := char_toNat_ofNat (48 + k) (by omega)
  rw [Bool.and_eq_true]
  constructor
  · exact decide_eq_true ((char_le_iff _ _).2
      (show (48 : Nat) ≤ (Char.ofNat (48 + k)).toNat by rw [ht]; omega))
  · exact decide_eq_true ((char_le_iff _ _).2
      (show (Char.ofNat (48 + k)).toNat ≤ (57 : Nat) by rw [ht]; omega))

theorem isDigitCh_toNat (c : Char) (h : isDigitCh c = true) :
    48 ≤ c.toNat ∧ c.toNat ≤ 57 := by
  unfold isDigitCh at h
  simp only [Bool.and_eq_true, decide_eq_true_eq, char_le_iff] at h
  exact ⟨h.1, h.2⟩

theorem ofNat_ne_zero_char (k : Nat) (h1 : 1 ≤ k) (h2 : k ≤ 9) :
    ¬(Char.ofNat (48 + k) = '0') := by
  intro he
  have := congrArg Char.toNat he
  rw [char_toNat_ofNat (48 + k) (by omega)] at this
  have e0 : ('0').toNat = 48 := by decide
  rw [e0] at this
  omega

theorem natToDec_digits (n : Nat) (h : n ≤ 255) : ∀ c ∈ natToDec n, isDigitCh c = true := by
  unfold natToDec
  by_cases h1 : n < 10
  · rw [if_pos h1]
    intro c hc
    simp only [List.mem_singleton] at hc
    subst hc
    exact isDigitCh_ofNat n (by omega)
  · rw [if_neg h1]
    by_cases h2 : n < 100
    · rw [if_pos h2]
      intro c hc
      simp only [List.mem_cons, List.not_mem_nil, or_false] at hc
      rcases hc with rfl | rfl
      · exact isDigitCh_ofNat (n / 10) (by omega)
      · exact isDigitCh_ofNat (n % 10) (by omega)
    · rw [if_neg h2]
      intro c hc
      simp only [List.mem_cons, List.not_mem_nil, or_false] at hc
      rcases hc with rfl | rfl | rfl
      · exact isDigitCh_ofNat (n / 100) (by omega)
      · exact isDigitCh_ofNat (n / 10 % 10) (by omega)
      · exact isDigitCh_ofNat (n % 10) (by omega)

theorem natToDec_ne_nil (n : Nat) : natToDec n ≠ [] := by
  unfold natToDec
  by_cases h1 : n < 10
  · rw [if_pos h1]
    simp
  · rw [if_neg h1]
    by_cases h2 : n < 100
    · rw [if_pos h2]
      simp
    · rw [if_neg h2]
      simp

theorem parseDecOctet_natToDec (n : Nat) (h : n ≤ 255) : parseDecOctet (natToDec n) = some n := by
  unfold natToDec
  by_cases h1 : n < 10
  · rw [if_pos h1]
    unfold parseDecOctet
    have ht : (Char.ofNat (48 + n)).toNat = 48 + n := char_toNat_ofNat _ (by omega)
    have hd : isDigitCh (Char.ofNat (48 + n)) = true := isDigitCh_ofNat n (by omega)
    have hdv : decVal [Char.ofNat (48 + n)] = n := by
      unfold decVal
      simp only [List.foldl_cons, List.foldl_nil]
      rw [ht]
      omega
    simp [hd, hdv, h]
  · rw [if_neg h1]
    by_cases h2 : n < 100
    · rw [if_pos h2]
      unfold parseDecOctet
      have ht1 : (Char.ofNat (48 + n / 10)).toNat = 48 + n / 10 := char_toNat_ofNat _ (by omega)
      have ht2 : (Char.ofNat (48 + n % 10)).toNat = 48 + n % 10 := char_toNat_ofNat _ (by omega)
      have hd1 : isDigitCh (Char.ofNat (48 + n / 10)) = true := isDigitCh_ofNat _ (by omega)
      have hd2 : isDigitCh (Char.ofNat (48 + n % 10)) = true := isDigitCh_ofNat _ (by omega)
      have hz : ¬(Char.ofNat (48 + n / 10) = '0') := ofNat_ne_zero_char _ (by omega) (by omega)
      have hdv : decVal [Char.ofNat (48 + n / 10), Char.ofNat (48 + n % 10)] = n := by
        unfold decVal
        simp only [List.foldl_cons, List.foldl_nil]
        rw [ht1, ht2]
        omega
      simp [hd1, hd2, hz, hdv, h]
    · rw [if_neg h2]
      unfold parseDecOctet
      have ht1 : (Char.ofNat (48 + n / 100)).toNat = 48 + n / 100 := char_toNat_ofNat _ (by omega)
      have ht2 : (Char.ofNat (48 + n / 10 % 10)).toNat = 48 + n / 10 % 10 :=
        char_toNat_ofNat _ (by omega)
      have ht3 : (Char.ofNat (48 + n % 10)).toNat = 48 + n % 10 := char_toNat_ofNat _ (by omega)
      have hd1 : isDigitCh (Char.ofNat (48 + n / 100)) = true := isDigitCh_ofNat _ (by omega)
      have hd2 : isDigitCh (Char.ofNat (48 + n / 10 % 10)) = true := isDigitCh_ofNat _ (by omega)
      have hd3 : isDigitCh (Char.ofNat (48 + n % 10)) = true := isDigitCh_ofNat _ (by omega)
      have hz : ¬(Char.ofNat (48 + n / 100) = '0') := ofNat_ne_zero_char _ (by omega) (by omega)
      have hdv : decVal [Char.ofNat (48 + n / 100), Char.ofNat (48 + n / 10 % 10),
          Char.ofNat (48 + n % 10)] = n := by
        unfold decVal
        simp only [List.foldl_cons, List.foldl_nil]
        rw [ht1, ht2, ht3]
        omega
      simp [hd1, hd2, hd3, hz, hdv, h]

theorem digit_ne_dot (c : Char) (h : isDigitCh c = true) : c ≠ '.' := by
  intro he
  subst he
  exact absurd h (by decide)

theorem digit_ne_colon (c : Char) (h : isDigitCh c = true) : c ≠ ':' := by
  intro he
  subst he
  exact absurd h (by decide)

theorem digit_ne_bracket (c : Char) (h : isDigitCh c = true) : c ≠ '[' := by
  intro he
  subst he
  exact absurd h (by decide)

theorem splitOnChar_printIPv4 (a b c d : Nat) (ha : a ≤ 255) (hb : b ≤ 255) (hc : c ≤ 255)
    (hd : d ≤ 255) :
    splitOnChar '.' (printIPv4 a b c d) = [natToDec a, natToDec b, natToDec c, natToDec d] := by
  have hna : '.' ∉ natToDec a := fun hm => digit_ne_dot _ (natToDec_digits a ha _ hm) rfl
  have hnb : '.' ∉ natToDec b := fun hm => digit_ne_dot _ (natToDec_digits b hb _ hm) rfl
  have hnc : '.' ∉ natToDec c := fun hm => digit_ne_dot _ (natToDec_digits c hc _ hm) rfl
  have hnd : '.' ∉ natToDec d := fun hm => digit_ne_dot _ (natToDec_digits d hd _ hm) rfl
  unfold splitOnChar printIPv4
  simp only [List.append_assoc, List.cons_append]
  rw [splitOnAux_sep '.' (natToDec a) _ [] hna]
  rw [splitOnAux_sep '.' (natToDec b) _ [] hnb]
  rw [splitOnAux_sep '.' (natToDec c) _ [] hnc]
  rw [splitOnAux_no_sep '.' (natToDec d) [] hnd]
  simp

theorem parseIP_printIPv4 (a b c d : Nat) (ha : a ≤ 255) (hb : b ≤ 255) (hc : c ≤ 255)
    (hd : d ≤ 255) : parseIP (printIPv4 a b c d) = some (.v4 a b c d) := by
  have hfind : (printIPv4 a b c d).find? (fun x => x = '.' || x = ':') = some '.' := by
    unfold printIPv4
    simp only [List.append_assoc, List.cons_append]
    rw [find?_skip _ (natToDec a) _ (fun x hx => by
      have hdg := natToDec_digits a ha x hx
      simp [digit_ne_dot x hdg, digit_ne_colon x hdg])]
    rw [List.find?_cons]
    simp
  unfold parseIP
  rw [hfind]
  dsimp only
  rw [if_pos rfl]
  unfold parseIPv4
  rw [splitOnChar_printIPv4 a b c d ha hb hc hd]
  dsimp only
  rw [parseDecOctet_natToDec a ha, parseDecOctet_natToDec b hb, parseDecOctet_natToDec c hc,
    parseDecOctet_natToDec d hd]

theorem decVal_foldl_lb : ∀ (l : Str) (a : Nat),
    a * 10 ^ l.length ≤ List.foldl (fun acc c => acc * 10 + (c.toNat - 48)) a l := by
  intro l
  induction l with
  | nil => intro a; simp
  | cons c t ih =>
    intro a
    rw [List.foldl_cons]
    have h2 : a * 10 ^ (c :: t).length ≤ (a * 10 + (c.toNat - 48)) * 10 ^ t.length := by
      have h3 : a * 10 ^ (c :: t).length = (a * 10) * 10 ^ t.length := by
        rw [List.length_cons]
        ring
      rw [h3]
      exact Nat.mul_le_mul_right _ (by omega)
    exact le_trans h2 (ih _)

theorem parseDecOctet_components (o : Str) (n : Nat) (h : parseDecOctet o = some n) :
    ∃ c rest, o = c :: rest ∧ (∀ x ∈ o, isDigitCh x = true) ∧
      (decide (c = '0') && decide (rest ≠ [])) = false ∧ n = decVal o ∧ n ≤ 255 := by
  unfold parseDecOctet at h
  cases o with
  | nil => cases h
  | cons c rest =>
    rw [Option.ite_none_right_eq_some] at h
    obtain ⟨hg, hval⟩ := h
    rw [Option.some.injEq] at hval
    simp only [Bool.and_eq_true, decide_eq_true_eq] at hg
    obtain ⟨⟨hall, hnz⟩, hle⟩ := hg
    refine ⟨c, rest, rfl, ?_, ?_, hval.symm, by omega⟩
    · rw [List.all_eq_true] at hall
      exact hall
    · rw [Bool.not_eq_true'] at hnz
      exact hnz

theorem parseDecOctet_le (o : Str) (n : Nat) (h : parseDecOctet o = some n) : n ≤ 255 := by
  obtain ⟨_, _, _, _, _, _, hle⟩ := parseDecOctet_components o n h
  exact hle

theorem natToDec_parseDecOctet (o : Str) (n : Nat) (h : parseDecOctet o = some n) :
    natToDec n = o := by
  obtain ⟨c, rest, rfl, hall, hnz, hn, hle⟩ := parseDecOctet_components _ n h
  have hcd := isDigitCh_toNat c (hall c (by simp))
  cases rest with
  | nil =>
    have hdv : n = c.toNat - 48 := by
      rw [hn]
      unfold decVal
      simp only [List.foldl_cons, List.foldl_nil]
      omega
    unfold natToDec
    rw [if_pos (by omega)]
    have he : 48 + n = c.toNat := by omega
    rw [he, Char.ofNat_toNat]
  | cons c2 rest2 =>
    have hc2d := isDigitCh_toNat c2 (hall c2 (by simp))
    have hne0 : c.toNat ≠ 48 := by
      intro h48
      have : decide (c = '0') = true :=
        decide_eq_true (char_eq_of_toNat c '0' (by rw [h48]; decide))
      rw [this] at hnz
      have : decide ((c2 :: rest2 : Str) ≠ []) = true := decide_eq_true (by simp)
      rw [this] at hnz
      cases hnz
    cases rest2 with
    | nil =>
      have hdv : n = (c.toNat - 48) * 10 + (c2.toNat - 48) := by
        rw [hn]
        unfold decVal
        simp only [List.foldl_cons, List.foldl_nil]
        omega
      unfold natToDec
      rw [if_neg (by omega), if_pos (by omega)]
      have he1 : 48 + n / 10 = c.toNat := by omega
      have he2 : 48 + n % 10 = c2.toNat := by omega
      rw [he1, he2, Char.ofNat_toNat, Char.ofNat_toNat]
    | cons c3 rest3 =>
      have hc3d := isDigitCh_toNat c3 (hall c3 (by simp))
      cases rest3 with
      | nil =>
        have hdv : n = ((c.toNat - 48) * 10 + (c2.toNat - 48)) * 10 + (c3.toNat - 48) := by
          rw [hn]
          unfold decVal
          simp only [List.foldl_cons, List.foldl_nil]
          omega
        unfold natToDec
        rw [if_neg (by omega), if_neg (by omega)]
        have he1 : 48 + n / 100 = c.toNat := by omega
        have he2 : 48 + n / 10 % 10 = c2.toNat := by omega
        have he3 : 48 + n % 10 = c3.toNat := by omega
        rw [he1, he2, he3, Char.ofNat_toNat, Char.ofNat_toNat, Char.ofNat_toNat]
      | cons c4 rest4 =>
        -- four or more digits without a leading zero exceed 255
        exfalso
        have hstep : decVal (c :: c2 :: c3 :: c4 :: rest4) =
            List.foldl (fun acc x => acc * 10 + (x.toNat - 48)) (c.toNat - 48)
              (c2 :: c3 :: c4 :: rest4) := by
          unfold decVal
          rw [List.foldl_cons]
          simp only [Nat.zero_mul, Nat.zero_add]
        have hlb := decVal_foldl_lb (c2 :: c3 :: c4 :: rest4) (c.toNat - 48)
        rw [← hstep] at hlb
        have hp : 10 ^ (c2 :: c3 :: c4 :: rest4 : Str).length ≥ 1000 := by
          have : (3 : Nat) ≤ (c2 :: c3 :: c4 :: rest4 : Str).length := by
            simp [List.length_cons]
          calc (1000 : Nat) = 10 ^ 3 := by norm_num
            _ ≤ 10 ^ (c2 :: c3 :: c4 :: rest4 : Str).length := Nat.pow_le_pow_right (by omega) this
        have h1c : 1 ≤ c.toNat - 48 := by omega
        have : 1000 ≤ (c.toNat - 48) * 10 ^ (c2 :: c3 :: c4 :: rest4 : Str).length := by
          calc (1000 : Nat) = 1 * 1000 := by omega
            _ ≤ (c.toNat - 48) * 10 ^ (c2 :: c3 :: c4 :: rest4 : Str).length :=
              Nat.mul_le_mul h1c hp
        omega

theorem parseIPv4_shape (s : Str) (ip : IPAddr) (h : parseIPv4 s = some ip) :
    ∃ a b c d, ip = .v4 a b c d ∧ a ≤ 255 ∧ b ≤ 255 ∧ c ≤ 255 ∧ d ≤ 255 ∧
      printIPv4 a b c d = s := by
  unfold parseIPv4 at h
  split at h
  · rename_i o1 o2 o3 o4 heq
    split at h
    · rename_i a b c d h1 h2 h3 h4
      cases h
      refine ⟨a, b, c, d, rfl, parseDecOctet_le o1 a h1, parseDecOctet_le o2 b h2,
        parseDecOctet_le o3 c h3, parseDecOctet_le o4 d h4, ?_⟩
      unfold printIPv4
      rw [natToDec_parseDecOctet o1 a h1, natToDec_parseDecOctet o2 b h2,
        natToDec_parseDecOctet o3 c h3, natToDec_parseDecOctet o4 d h4]
      rw [← joinDots_splitOnChar s, heq]
      simp [joinDots, List.append_assoc]
    · cases h
  · cases h

/-! IPv6 groups are bounded and always print with a colon. -/

theorem hexVal_le (c : Char) (k : Nat) (h : hexVal c = some k) : k ≤ 15 := by
  unfold hexVal at h
  split at h
  · rename_i hr
    cases h
    have := (char_le_iff c '9').1 hr.2
    have e9 : ('9').toNat = 57 := by decide
    rw [e9] at this
    omega
  · split at h
    · rename_i hr
      cases h
      have := (char_le_iff c 'f').1 hr.2
      have ef : ('f').toNat = 102 := by decide
      rw [ef] at this
      omega
    · split at h
      · rename_i hr
        cases h
        have := (char_le_iff c 'F').1 hr.2
        have eF : ('F').toNat = 70 := by decide
        rw [eF] at this
        omega
      · cases h

theorem hexFold_none : ∀ (l : Str),
    List.foldl (fun acc c =>
      match acc, hexVal c with
      | some a, some h => some (a * 16 + h)
      | _, _ => none) none l = none := by
  intro l
  induction l with
  | nil => rfl
  | cons c t ih =>
    rw [List.foldl_cons]
    exact ih

theorem hexFold_bound : ∀ (l : Str) (a0 g : Nat),
    List.foldl (fun acc c =>
      match acc, hexVal c with
      | some a, some h => some (a * 16 + h)
      | _, _ => none) (some a0) l = some g → g < (a0 + 1) * 16 ^ l.length := by
  intro l
  induction l with
  | nil =>
    intro a0 g h
    rw [List.foldl_nil, Option.some.injEq] at h
    subst h
    simp
  | cons c t ih =>
    intro a0 g h
    rw [List.foldl_cons] at h
    cases hv : hexVal c with
    | none =>
      rw [hv] at h
      dsimp only at h
      rw [hexFold_none t] at h
      cases h
    | some k =>
      rw [hv] at h
      dsimp only at h
      have hk := hexVal_le c k hv
      have hb := ih (a0 * 16 + k) g h
      calc g < (a0 * 16 + k + 1) * 16 ^ t.length := hb
        _ ≤ ((a0 + 1) * 16) * 16 ^ t.length := Nat.mul_le_mul_right _ (by omega)
        _ = (a0 + 1) * 16 ^ (c :: t : Str).length := by
          rw [List.length_cons]
          ring

theorem parseHexGroup_lt (s : Str) (g : Nat) (h : parseHexGroup s = some g) : g < 65536 := by
  unfold parseHexGroup at h
  split at h
  · cases h
  · rename_i hcond
    push_neg at hcond
    have hb := hexFold_bound s 0 g h
    have hlen : s.length ≤ 4 := by omega
    have : (16 : Nat) ^ s.length ≤ 16 ^ 4 := Nat.pow_le_pow_right (by omega) hlen
    calc g < (0 + 1) * 16 ^ s.length := hb
      _ ≤ 16 ^ 4 := by omega
      _ = 65536 := by norm_num

theorem parseSegs_lt : ∀ (l : List Str) (gs : List Nat), parseSegs l = some gs →
    ∀ x ∈ gs, x < 65536 := by
  intro l
  induction l with
  | nil =>
    intro gs h x hx
    rw [show parseSegs [] = some [] from rfl, Option.some.injEq] at h
    subst h
    simp at hx
  | cons s rest ih =>
    intro gs h x hx
    cases rest with
    | nil =>
      simp only [parseSegs] at h
      split at h
      · split at h
        · rename_i a b c d heq
          rw [Option.some.injEq] at h
          subst h
          obtain ⟨a', b', c', d', hip, ha, hb, hc, hd, _⟩ := parseIPv4_shape _ _ heq
          rw [IPAddr.v4.injEq] at hip
          obtain ⟨rfl, rfl, rfl, rfl⟩ := hip
          simp only [List.mem_cons, List.not_mem_nil, or_false] at hx
          rcases hx with rfl | rfl <;> omega
        · cases h
      · split at h
        · rename_i g hg
          rw [Option.some.injEq] at h
          subst h
          simp only [List.mem_singleton] at hx
          subst hx
          exact parseHexGroup_lt _ _ hg
        · cases h
    | cons s2 rest2 =>
      simp only [parseSegs] at h
      split at h
      · rename_i g gs2 hg hgs
        rw [Option.some.injEq] at h
        subst h
        simp only [List.mem_cons] at hx
        rcases hx with rfl | hx2
        · exact parseHexGroup_lt _ _ hg
        · exact ih gs2 hgs x hx2
      · cases h

theorem parseSegsAux_lt (l : List Str) (gs : List Nat)
    (h : parseIPv6.parseSegs' l = some gs) : ∀ x ∈ gs, x < 65536 := by
  cases l with
  | nil =>
    rw [show parseIPv6.parseSegs' [] = some [] from rfl, Option.some.injEq] at h
    subst h
    intro x hx
    simp at hx
  | cons y ys =>
    rw [show parseIPv6.parseSegs' (y :: ys) = parseSegs (y :: ys) from rfl] at h
    exact parseSegs_lt _ _ h

theorem parseIPv6_WF (s : Str) (ip : IPAddr) (h : parseIPv6 s = some ip) :
    ∃ g, ip = .v6 g ∧ g.length = 8 ∧ ∀ x ∈ g, x < 65536 := by
  unfold parseIPv6 at h
  dsimp only at h
  split at h
  · -- no empty segment: full form
    split at h
    · rename_i gs hgs
      rw [Option.ite_none_right_eq_some, Option.some.injEq] at h
      obtain ⟨hlen, hip⟩ := h
      exact ⟨gs, hip.symm, hlen, parseSegs_lt _ _ hgs⟩
    · cases h
  · -- compressed form
    split at h
    · cases h
    · rename_i pre post hsplit
      split at h
      · rename_i g1 g2 h1 h2
        rw [Option.ite_none_right_eq_some, Option.some.injEq] at h
        obtain ⟨hlt, hip⟩ := h
        refine ⟨_, hip.symm, ?_, ?_⟩
        · simp only [List.length_append, List.length_replicate]
          omega
        · intro x hx
          rcases List.mem_append.1 hx with hx1 | hx2
          · rcases List.mem_append.1 hx1 with hx1a | hx1b
            · exact parseSegsAux_lt _ _ h1 x hx1a
            · rw [List.eq_of_mem_replicate hx1b]
              omega
          · exact parseSegsAux_lt _ _ h2 x hx2
      · cases h

theorem parseSegs_single_len (s0 : Str) (gs : List Nat) (h : parseSegs [s0] = some gs) :
    gs.length ≤ 2 := by
  simp only [parseSegs] at h
  split at h
  · split at h
    · rw [Option.some.injEq] at h
      subst h
      simp
    · cases h
  · split at h
    · rw [Option.some.injEq] at h
      subst h
      simp
    · cases h

theorem parseIPv6_no_colon (s : Str) (hc : ':' ∉ s) : parseIPv6 s = none := by
  cases s with
  | nil => rfl
  | cons c t =>
    have hsplit : splitOnChar ':' (c :: t) = [c :: t] := by
      unfold splitOnChar
      rw [splitOnAux_no_sep ':' (c :: t) [] hc]
      rfl
    unfold parseIPv6
    rw [hsplit]
    dsimp only
    have hE : (List.range ([c :: t] : List Str).length).filter
        (fun i => ([c :: t] : List Str).getD i [] = []) = [] := by
      simp [List.range_succ]
    rw [hE]
    dsimp only
    cases hps : parseSegs [c :: t] with
    | none => rfl
    | some gs =>
      have hl2 := parseSegs_single_len _ _ hps
      dsimp only
      rw [if_neg (show ¬(gs.length = 8) by omega)]

theorem parseIP_branch (s : Str) (ip : IPAddr) (h : parseIP s = some ip) :
    parseIPv4 s = some ip ∨ parseIPv6 s = some ip := by
  unfold parseIP at h
  split at h
  · split at h
    · exact Or.inl h
    · exact Or.inr h
  · cases h

theorem parseIP_no_colon_v4 (s : Str) (ip : IPAddr) (h : parseIP s = some ip)
    (hc : ':' ∉ s) : parseIPv4 s = some ip := by
  rcases parseIP_branch s ip h with h4 | h6
  · exact h4
  · rw [parseIPv6_no_colon s hc] at h6
    cases h6

theorem joinDotsC_colon : ∀ (l : List Str), 2 ≤ l.length → ':' ∈ printIPv6.joinDots' l := by
  intro l hl
  cases l with
  | nil => simp at hl
  | cons p l2 =>
    cases l2 with
    | nil => simp at hl
    | cons q rest =>
      rw [show printIPv6.joinDots' (p :: q :: rest) =
        p ++ ':' :: printIPv6.joinDots' (q :: rest) from rfl]
      simp

theorem printIPv6_colon (g : List Nat) (hlen : 2 ≤ g.length) : ':' ∈ printIPv6 g := by
  unfold printIPv6
  cases hbz : bestZeroRun g with
  | none =>
    dsimp only
    apply joinDotsC_colon
    simp only [List.length_map]
    exact hlen
  | some p =>
    obtain ⟨s0, l0⟩ := p
    dsimp only
    simp

theorem normalizeIP_shape (ip : IPAddr)
    (hwf : (∃ a b c d, ip = .v4 a b c d ∧ a ≤ 255 ∧ b ≤ 255 ∧ c ≤ 255 ∧ d ≤ 255) ∨
           (∃ g, ip = .v6 g ∧ g.length = 8 ∧ ∀ x ∈ g, x < 65536))
    (hc : ':' ∉ normalizeIP ip) :
    ∃ a b c d, normalizeIP ip = printIPv4 a b c d ∧ a ≤ 255 ∧ b ≤ 255 ∧ c ≤ 255 ∧ d ≤ 255 := by
  rcases hwf with ⟨a, b, c, d, rfl, hb⟩ | ⟨g, rfl, hlen, hbnd⟩
  · exact ⟨a, b, c, d, rfl, hb.1, hb.2.1, hb.2.2.1, hb.2.2.2⟩
  · by_cases hm : g.take 5 = [0, 0, 0, 0, 0] ∧ g.getD 5 0 = 0xffff ∧ g.length = 8
    · have ht4 : toV4 (.v6 g) = some (g.getD 6 0 / 256, g.getD 6 0 % 256,
          g.getD 7 0 / 256, g.getD 7 0 % 256) := by
        unfold toV4
        dsimp only
        rw [if_pos hm]
      have h6 : g.getD 6 0 < 65536 := by
        have hmem : g.getD 6 0 ∈ g := by
          rw [List.getD_eq_getElem g 0 (by omega)]
          exact List.getElem_mem _
        exact hbnd _ hmem
      have h7 : g.getD 7 0 < 65536 := by
        have hmem : g.getD 7 0 ∈ g := by
          rw [List.getD_eq_getElem g 0 (by omega)]
          exact List.getElem_mem _
        exact hbnd _ hmem
      refine ⟨g.getD 6 0 / 256, g.getD 6 0 % 256, g.getD 7 0 / 256, g.getD 7 0 % 256, ?_,
        by omega, by omega, by omega, by omega⟩
      unfold normalizeIP
      rw [ht4]
    · have ht4 : toV4 (.v6 g) = none := by
        unfold toV4
        dsimp only
        rw [if_neg hm]
      exfalso
      apply hc
      have : normalizeIP (.v6 g) = printIPv6 g := by
        unfold normalizeIP
        rw [ht4]
      rw [this]
      exact printIPv6_colon g (by omega)

/-! Dissecting a successful first normalization pass. -/

theorem except_ite_ok {cond : Prop} [Decidable cond] {x : Str} {e : GoErr} {h0 : Str}
    (h : (if cond then Except.ok x else Except.error e) = (.ok h0 : Except GoErr Str)) :
    h0 = x ∧ cond := by
  by_cases hc : cond
  · rw [if_pos hc] at h
    cases h
    exact ⟨rfl, hc⟩
  · rw [if_neg hc] at h
    cases h

theorem parseHost_ok_all (hp h0 : Str) (h : parseHost hp = .ok h0) :
    h0 = hp ∧ hp.all allowedHostChar = true := by
  unfold parseHost at h
  dsimp only at h
  obtain ⟨hx, hcnd⟩ := except_ite_ok h
  rw [Bool.and_eq_true] at hcnd
  exact ⟨hx, hcnd.2⟩

theorem urlParseHost_ok_allowed (r h0 : Str) (h : urlParseHost r = .ok h0) :
    ∀ c ∈ h0, allowedHostChar c = true := by
  unfold urlParseHost at h
  cases hcc : r.any (fun c => c.toNat < 0x20 || c.toNat = 0x7f) with
  | true =>
    rw [hcc, if_pos rfl] at h
    cases h
  | false =>
    rw [hcc, if_neg (show ¬(false = true) by simp)] at h
    cases hgs : getScheme r with
    | error e =>
      rw [hgs] at h
      dsimp only at h
      cases h
    | ok p =>
      obtain ⟨sch, rest⟩ := p
      rw [hgs] at h
      dsimp only at h
      by_cases hpfx : pfxOf ('/' :: '/' :: []) rest = true
      · rw [if_pos hpfx] at h
        obtain ⟨hx, hall⟩ := parseHost_ok_all _ _ h
        intro c hc
        rw [hx] at hc
        exact (List.all_eq_true.1 hall) c hc
      · rw [if_neg hpfx] at h
        simp only [Except.ok.injEq] at h
        subst h
        intro c hc
        simp at hc

theorem removePort_subset (host : Str) : ∀ c ∈ removePort host, c ∈ host := by
  intro c hc
  unfold removePort at hc
  by_cases h1 : (strContainsSub host [':'] && !strContainsSub host (':' :: ':' :: [])) = true
  · rw [if_pos h1] at hc
    cases hli : lastIdx ':' host with
    | none =>
      rw [hli] at hc
      exact hc
    | some idx =>
      rw [hli] at hc
      dsimp only at hc
      by_cases h2 : portTailMatch (host.drop idx) = true
      · rw [if_pos h2] at hc
        exact List.take_subset _ _ hc
      · rw [if_neg h2] at hc
        exact hc
  · rw [if_neg h1] at hc
    exact hc

theorem normalizeDomain_ok_shape (host s : Str) (h : normalizeDomain host = .ok s) :
    (∀ c ∈ host, c.toNat < 128) ∧
    (s = strToLower host ∨ s = (strToLower host).drop 4) ∧ IsValidDomain s = true := by
  unfold normalizeDomain at h
  cases hta : toASCII host with
  | error e =>
    rw [hta] at h
    dsimp only at h
    cases h
  | ok ascii =>
    have hta' := hta
    unfold toASCII at hta'
    obtain ⟨ha1, ha2⟩ := except_ite_ok hta'
    subst ascii
    rw [hta] at h
    dsimp only at h
    obtain ⟨hs, hvd⟩ := except_ite_ok h
    have h128 : ∀ c ∈ host, c.toNat < 128 := by
      intro c hc
      have := (List.all_eq_true.1 ha2) c hc
      simpa using this
    by_cases hw : strHasPfx (strToLower host) ('w' :: 'w' :: 'w' :: '.' :: []) = true
    · rw [if_pos hw] at hs hvd
      by_cases hw2 : IsValidDomain ((strToLower host).drop 4) = true
      · rw [if_pos hw2] at hs hvd
        exact ⟨h128, Or.inr hs, hs ▸ hvd⟩
      · rw [if_neg hw2] at hs hvd
        exact ⟨h128, Or.inl hs, hs ▸ hvd⟩
    · rw [if_neg hw] at hs hvd
      exact ⟨h128, Or.inl hs, hs ▸ hvd⟩

theorem IsValidDomain_ne_nil (d : Str) (h : IsValidDomain d = true) : d ≠ [] := by
  intro he
  subst he
  exact absurd h (by decide)

theorem printIPv4_ne_nil (a b c d : Nat) : printIPv4 a b c d ≠ [] := by
  unfold printIPv4
  simp

theorem printIPv4_chars (a b c d : Nat) (ha : a ≤ 255) (hb : b ≤ 255) (hc : c ≤ 255)
    (hd : d ≤ 255) : ∀ x ∈ printIPv4 a b c d, isDigitCh x = true ∨ x = '.' := by
  intro x hx
  unfold printIPv4 at hx
  simp only [List.mem_append, List.mem_cons] at hx
  rcases hx with ((hxa | rfl | hxb) | rfl | hxc) | rfl | hxd
  · exact Or.inl (natToDec_digits a ha x hxa)
  · exact Or.inr rfl
  · exact Or.inl (natToDec_digits b hb x hxb)
  · exact Or.inr rfl
  · exact Or.inl (natToDec_digits c hc x hxc)
  · exact Or.inr rfl
  · exact Or.inl (natToDec_digits d hd x hxd)

theorem Normalize_tail_ok (host0 s : Str)
    (hall0 : ∀ c ∈ host0, allowedHostChar c = true)
    (h : (if host0 = [] then (.error .errInvalidURL : Except GoErr Str)
          else
            match parseIP (strToLower (removePort host0)) with
            | some ip => .ok (normalizeIP ip)
            | none =>
              if strHasPfx (strToLower (removePort host0)) ['['] &&
                  strHasSfx (strToLower (removePort host0)) [']'] then
                match parseIP (trimBrackets (strToLower (removePort host0))) with
                | some ip => .ok (normalizeIP ip)
                | none => .error .errInvalidIP
              else normalizeDomain (strToLower (removePort host0))) = .ok s) :
    ∃ host : Str, (∀ c ∈ host, allowedHostChar c = true) ∧ (∀ c ∈ host, toLowerChar c = c) ∧
      ((∃ ip, parseIP host = some ip ∧ s = normalizeIP ip) ∨
       (∃ ip, parseIP (trimBrackets host) = some ip ∧ s = normalizeIP ip) ∨
       normalizeDomain host = .ok s) := by
  by_cases hh0 : host0 = []
  · rw [if_pos hh0] at h
    cases h
  · rw [if_neg hh0] at h
    refine ⟨strToLower (removePort host0), ?_, ?_, ?_⟩
    · intro c hc
      obtain ⟨a, ha, rfl⟩ := List.mem_map.1 hc
      exact allowedHostChar_toLower a (hall0 a (removePort_subset host0 a ha))
    · intro c hc
      obtain ⟨a, ha, rfl⟩ := List.mem_map.1 hc
      exact toLowerChar_idem a
    · cases hip : parseIP (strToLower (removePort host0)) with
      | some ip =>
        rw [hip] at h
        dsimp only at h
        simp only [Except.ok.injEq] at h
        exact Or.inl ⟨ip, rfl, h.symm⟩
      | none =>
        rw [hip] at h
        dsimp only at h
        by_cases hbr2 : (strHasPfx (strToLower (removePort host0)) ['['] &&
            strHasSfx (strToLower (removePort host0)) [']']) = true
        · rw [if_pos hbr2] at h
          cases hip2 : parseIP (trimBrackets (strToLower (removePort host0))) with
          | some ip =>
            rw [hip2] at h
            dsimp only at h
            simp only [Except.ok.injEq] at h
            exact Or.inr (Or.inl ⟨ip, rfl, h.symm⟩)
          | none =>
            rw [hip2] at h
            dsimp only at h
            cases h
        · rw [if_neg hbr2] at h
          exact Or.inr (Or.inr h)

theorem Normalize_ok_host (u s : Str) (h : Normalize u = .ok s) :
    ∃ host : Str, (∀ c ∈ host, allowedHostChar c = true) ∧ (∀ c ∈ host, toLowerChar c = c) ∧
      ((∃ ip, parseIP host = some ip ∧ s = normalizeIP ip) ∨
       (∃ ip, parseIP (trimBrackets host) = some ip ∧ s = normalizeIP ip) ∨
       normalizeDomain host = .ok s) := by
  unfold Normalize at h
  by_cases hu : u = []
  · rw [if_pos hu] at h
    cases h
  · rw [if_neg hu] at h
    dsimp only at h
    -- dispatch on the scheme test, then on the host parse
    cases hcts : strContainsSub (trimSpace u) (':' :: '/' :: '/' :: []) with
    | true =>
      rw [hcts, if_pos rfl] at h
      cases hup : urlParseHost (trimSpace u) with
      | error e =>
        rw [hup] at h
        dsimp only at h
        cases h
      | ok host0 =>
        rw [hup] at h
        dsimp only at h
        exact Normalize_tail_ok host0 s (urlParseHost_ok_allowed _ _ hup) h
    | false =>
      rw [hcts, if_neg (show ¬(false = true) by simp)] at h
      cases hup : urlParseHost (('h' :: 't' :: 't' :: 'p' :: ':' :: '/' :: '/' :: []) ++
          trimSpace u) with
      | error e =>
        rw [hup] at h
        dsimp only at h
        cases h
      | ok host0 =>
        rw [hup] at h
        dsimp only at h
        exact Normalize_tail_ok host0 s (urlParseHost_ok_allowed _ _ hup) h

/-- **C4** (amended): a successful `Normalize` output `s` is a fixed
point of `Normalize` whenever it contains no `':'` (the canonical
full-form IPv6 text, which contains colons but no `::`, loses its last
group to the port stripper on a second pass) and no `'['`, and does not
itself begin with a strippable `www.` layer (the one-shot `www.`-strip
removes one more layer on a second pass). -/
theorem C4_normalize_idempotent (u s : Str) (h : Normalize u = .ok s)
    (hcolon : ':' ∉ s) (hbr : '[' ∉ s)
    (hwww : ¬(strHasPfx s ('w' :: 'w' :: 'w' :: '.' :: []) = true ∧
      IsValidDomain (s.drop 4) = true)) :
    Normalize s = .ok s := by
  obtain ⟨host, hallow, hlow, hdisp⟩ := Normalize_ok_host u s h
  have hIPcase : ∀ (X : Str) (ip : IPAddr), parseIP X = some ip → s = normalizeIP ip →
      ':' ∉ s → '[' ∉ s → Normalize s = .ok s := by
    intro X ip hip hs hcolon' hbr'
    have hwf : (∃ a b c d, ip = .v4 a b c d ∧ a ≤ 255 ∧ b ≤ 255 ∧ c ≤ 255 ∧ d ≤ 255) ∨
        (∃ g, ip = .v6 g ∧ g.length = 8 ∧ ∀ x ∈ g, x < 65536) := by
      rcases parseIP_branch X ip hip with h4 | h6
      · obtain ⟨a, b, c, d, hip4, ha, hb, hc, hd, _⟩ := parseIPv4_shape X ip h4
        exact Or.inl ⟨a, b, c, d, hip4, ha, hb, hc, hd⟩
      · exact Or.inr (parseIPv6_WF X ip h6)
    subst hs
    obtain ⟨a, b, c, d, hps, ha, hb, hc, hd⟩ := normalizeIP_shape ip hwf hcolon'
    rw [hps] at hcolon' hbr' ⊢
    have hchars := printIPv4_chars a b c d ha hb hc hd
    have hall2 : ∀ x ∈ printIPv4 a b c d, allowedHostChar x = true := by
      intro x hx
      rcases hchars x hx with hdg | rfl
      · exact digit_allowedHostChar x hdg
      · exact dot_allowedHostChar
    have hlow2 : ∀ x ∈ printIPv4 a b c d, toLowerChar x = x := by
      intro x hx
      rcases hchars x hx with hdg | rfl
      · exact digit_toLower x hdg
      · decide
    rw [Normalize_canonical_host _ (printIPv4_ne_nil a b c d) hall2 hlow2 hcolon' hbr']
    rw [parseIP_printIPv4 a b c d ha hb hc hd]
    rfl
  rcases hdisp with ⟨ip, hip, hs⟩ | ⟨ip, hip, hs⟩ | hdom
  · exact hIPcase _ ip hip hs hcolon hbr
  · exact hIPcase _ ip hip hs hcolon hbr
  · obtain ⟨h128, hsshape, hvd⟩ := normalizeDomain_ok_shape host s hdom
    have hs_sub : ∀ c ∈ s, c ∈ strToLower host := by
      rcases hsshape with rfl | rfl
      · intro c hc
        exact hc
      · intro c hc
        exact List.drop_subset _ _ hc
    have hallow2 : ∀ c ∈ s, allowedHostChar c = true := by
      intro c hc
      obtain ⟨x, hx, rfl⟩ := List.mem_map.1 (hs_sub c hc)
      exact allowedHostChar_toLower x (hallow x hx)
    have hlow2 : ∀ c ∈ s, toLowerChar c = c := by
      intro c hc
      obtain ⟨x, hx, rfl⟩ := List.mem_map.1 (hs_sub c hc)
      exact toLowerChar_idem x
    have h128s : ∀ c ∈ s, c.toNat < 128 := by
      intro c hc
      obtain ⟨x, hx, rfl⟩ := List.mem_map.1 (hs_sub c hc)
      exact toLowerChar_lt128 x (h128 x hx)
    have hne : s ≠ [] := IsValidDomain_ne_nil s hvd
    rw [Normalize_canonical_host s hne hallow2 hlow2 hcolon hbr]
    cases hip : parseIP s with
    | some ip =>
      have h4 := parseIP_no_colon_v4 s ip hip hcolon
      obtain ⟨a, b, c, d, hip4, _, _, _, _, hprint⟩ := parseIPv4_shape s ip h4
      subst hip4
      dsimp only
      rw [show normalizeIP (.v4 a b c d) = printIPv4 a b c d from rfl, hprint]
    | none =>
      dsimp only
      unfold normalizeDomain
      have hcnd : s.all (fun c => c.toNat < 128) = true := by
        rw [List.all_eq_true]
        intro c hc
        exact decide_eq_true (h128s c hc)
      have hta : toASCII s = .ok s := by
        unfold toASCII
        rw [if_pos hcnd]
      rw [hta]
      dsimp only
      rw [strToLower_id s hlow2]
      by_cases hw : strHasPfx s ('w' :: 'w' :: 'w' :: '.' :: []) = true
      · rw [if_pos hw]
        have hw2 : ¬(IsValidDomain (s.drop 4) = true) := fun hv => hwww ⟨hw, hv⟩
        rw [if_neg hw2]
        rw [if_pos hvd]
      · rw [if_neg hw]
        rw [if_pos hvd]

/-- Counterexample to C4 as stated: `Normalize` maps
`www.www.example.com` to the canonical form `www.example.com`, but a
second pass strips another `www.` layer, so the canonical form is not a
fixed point. -/
theorem C4_counterexample :
    Normalize "www.www.example.com".toList = .ok "www.example.com".toList ∧
    Normalize "www.example.com".toList = .ok "example.com".toList ∧
    ¬("www.example.com".toList = "example.com".toList) := by
  refine ⟨by rfl, by rfl, by decide⟩

/-- Witness for the amended C4 at `u = "https://example.com:8080/path"`,
whose canonical form `example.com` is a `Normalize` fixed point. -/
theorem C4_witness :
    Normalize "https://example.com:8080/path".toList = .ok "example.com".toList ∧
    (':' ∉ "example.com".toList) ∧ ('[' ∉ "example.com".toList) ∧
    Normalize "example.com".toList = .ok "example.com".toList := by
  have h1 : Normalize "https://example.com:8080/path".toList = .ok "example.com".toList := by
    rfl
  refine ⟨h1, by decide, by decide, ?_⟩
  exact C4_normalize_idempotent _ _ h1 (by decide) (by decide) (by decide)

end Rkn
